import Mathlib

/-
Verification development for the loopy repository's CommonExtensions
(src/cpp_ext/CommonExtensions/CommonExtensions.cpp).

The development shallowly embeds the repository's own algorithmic glue:
  * the fusion legality gate `setFusedOpOperandLimit` and its helper
    `addOperands` (lines 165-191),
  * the greedy rewrite configurator `transform::ApplyPatternsOp::applyToOne`
    (lines 341-469),
  * the allocation hoister `hoistOneStaticallyBoundAllocation` /
    `hoistStaticallyBoundAllocationsInFunc` and the enclosing
    `transform::HoistStaticAllocOp::applyToOne` (lines 484-664),
  * `transform::ShareForallOperandsOp::applyToOne` (lines 670-735).

Host-compiler services (the greedy pattern driver, LICM, the upper-bound
analysis) are opaque collaborators of the code; they are modelled as
function parameters.  SSA values are modelled as natural-number
identities, operations carry an identity mirroring C++ pointer identity.
-/

namespace Loopy

/-- The diagnostic messages the embedded code can emit. -/
inductive FailureMsg
  | notIsolatedFromAbove
  | greedyPatternsFailed
  | operandIdxOverflow
deriving DecidableEq

/-- DiagnosedSilenceableFailure: success, or one of the two failure tiers. -/
inductive Diag
  | success
  | silenceableFailure (msg : FailureMsg)
  | definiteFailure (msg : FailureMsg)
deriving DecidableEq

namespace Fusion

/-- An operation as seen by the fusion gate: whether it is a structured
linalg op, its DPS input operands, its full operand list, and its results.
Values are identified by natural numbers. -/
structure Op where
  isLinalg : Bool
  dpsInputOperands : List Nat
  operands : List Nat
  results : List Nat
deriving DecidableEq

/-- An OpOperand: the operand's defining op (null for block arguments)
and its owner. -/
structure OpOperand where
  definingOp : Option Op
  owner : Op
deriving DecidableEq

/-- llvm::SetVector::insert — append only when not already present. -/
def svInsert (s : List Nat) (v : Nat) : List Nat :=
  if v ∈ s then s else s ++ [v]

/-- llvm::SetVector range insert. -/
def svInsertList (s : List Nat) (vs : List Nat) : List Nat :=
  vs.foldl svInsert s

/-- llvm::SetVector::remove. -/
def svRemove (s : List Nat) (v : Nat) : List Nat :=
  s.erase v

/-- Embeds `addOperands` (CommonExtensions.cpp lines 165-176): a null op
contributes nothing; a linalg op contributes its DPS input operands; any
other op contributes all of its operands. -/
def addOperands (op : Option Op) (operandSet : List Nat) : List Nat :=
  match op with
  | none => operandSet
  | some o =>
    if o.isLinalg then svInsertList operandSet o.dpsInputOperands
    else svInsertList operandSet o.operands

/-- Embeds `setFusedOpOperandLimit` (lines 178-191): reject when the
operand has no defining op or the producer does not yield exactly one
result; otherwise collect the consumer's operands, remove the producer's
single result, add the producer's operands, and compare the set's size
with the limit. -/
def setFusedOpOperandLimit (limit : Nat) (fusedOperand : OpOperand) : Bool :=
  match fusedOperand.definingOp with
  | none => false
  | some producer =>
    let consumer := fusedOperand.owner
    let fusedOpOperands : List Nat := []
    if producer.results.length ≠ 1 then false
    else
      let fusedOpOperands := addOperands (some consumer) fusedOpOperands
      let fusedOpOperands := svRemove fusedOpOperands producer.results.headI
      let fusedOpOperands := addOperands (some producer) fusedOpOperands
      decide (fusedOpOperands.length ≤ limit)

/-- The operand set of an op under the input-only rule, as a finite set
(the spec's deduplicated collection with insertion order irrelevant). -/
def operandFinset (o : Op) : Finset Nat :=
  if o.isLinalg then o.dpsInputOperands.toFinset else o.operands.toFinset


end Fusion

namespace Patterns

/-- The recognized toggle attributes of ApplyPatternsOp (the ADD_PATTERN
list at CommonExtensions.cpp lines 131-161). -/
structure Config where
  additionalPatterns : Bool
  bubbleCollapse : Bool
  bubbleExpand : Bool
  bubblePackUnPack : Bool
  canonicalization : Bool
  cse : Bool
  eraseUnnecessaryTensorOperands : Bool
  expandMemrefStridedMetadata : Bool
  foldMemrefAliases : Bool
  foldReassociativeReshapes : Bool
  foldTensorEmptyExtract : Bool
  licm : Bool
  linalgElementwiseGreedyFusion : Bool
  lowerTransferOpPermutations : Bool
  lowerVectorMasks : Bool
  rankReducingLinalg : Bool
  rankReducingLinalgViaReshapes : Bool
  rankReducingVector : Bool
  swapPaddingElideConditional : Bool
  swappingPatterns : Bool
  tilingCanonicalization : Bool
  unrollVectorsGpuMmaSync : Bool
  unrollVectorsGpuWmma : Bool
deriving DecidableEq

/-- One rewrite-pattern group that a toggle can add to the rule set. -/
inductive PatternGroup
  | additional
  | bubbleCollapse
  | bubbleExpand
  | bubblePackUnPack
  | canonicalizationAll
  | eraseUnnecessaryTensorOperands
  | expandStridedMetadata
  | foldMemrefAliases
  | reassociativeReshapes
  | foldTensorEmptyExtract
  | elementwiseGreedyFusion
  | transferOpPermutations
  | vectorMasks
  | rankReducingVector
  | swapping (elideConditional : Bool)
  | tilingCanonicalization
deriving DecidableEq

/-- Embeds the pattern assembly of ApplyPatternsOp::applyToOne (lines
352-396, the commented-out groups excluded), in source order; enabling a
toggle only appends its group. -/
def buildPatterns (cfg : Config) : List PatternGroup :=
  (if cfg.additionalPatterns then [PatternGroup.additional] else []) ++
  (if cfg.bubbleCollapse then [PatternGroup.bubbleCollapse] else []) ++
  (if cfg.bubbleExpand then [PatternGroup.bubbleExpand] else []) ++
  (if cfg.bubblePackUnPack then [PatternGroup.bubblePackUnPack] else []) ++
  (if cfg.canonicalization then [PatternGroup.canonicalizationAll] else []) ++
  (if cfg.eraseUnnecessaryTensorOperands then [PatternGroup.eraseUnnecessaryTensorOperands] else []) ++
  (if cfg.expandMemrefStridedMetadata then [PatternGroup.expandStridedMetadata] else []) ++
  (if cfg.foldMemrefAliases then [PatternGroup.foldMemrefAliases] else []) ++
  (if cfg.foldReassociativeReshapes then [PatternGroup.reassociativeReshapes] else []) ++
  (if cfg.foldTensorEmptyExtract then [PatternGroup.foldTensorEmptyExtract] else []) ++
  (if cfg.linalgElementwiseGreedyFusion then [PatternGroup.elementwiseGreedyFusion] else []) ++
  (if cfg.lowerTransferOpPermutations then [PatternGroup.transferOpPermutations] else []) ++
  (if cfg.lowerVectorMasks then [PatternGroup.vectorMasks] else []) ++
  (if cfg.rankReducingVector then [PatternGroup.rankReducingVector] else []) ++
  (if cfg.swappingPatterns then [PatternGroup.swapping cfg.swapPaddingElideConditional] else []) ++
  (if cfg.tilingCanonicalization then [PatternGroup.tilingCanonicalization] else [])

/-- The host compiler services ApplyPatternsOp calls into, over an opaque
payload type α and an opaque function-op type β.  `applyOpPatternsAndFold`
returns the rewritten payload and whether the fixpoint driver succeeded;
`licmAndPromoteOnFuncs` is the walk applying moveLoopInvariantCode and
promoteIfSingleIteration to every nested function; `funcOps` enumerates
the nested function ops. -/
structure HostServices (α β : Type) where
  applyOpPatternsAndFold : List PatternGroup → α → α × Bool
  licmAndPromoteOnFuncs : α → α
  funcOps : α → List β

/-- Embeds the cse-phase walk (lines 442-453): the elimination body is
commented out, every visit records the function and advances, so the walk
reports (lastFuncVisited, wasInterrupted = false). -/
def cseWalk {β : Type} (funcs : List β) : Option β × Bool :=
  (funcs.foldl (fun _ funcOp => some funcOp) none, false)

/-- Embeds transform::ApplyPatternsOp::applyToOne (lines 341-469): fail
definitely on a non-isolated target before any pattern assembly; assemble
the toggled pattern groups; run the host greedy driver over the nested
ops, promoting a driver failure to a definite failure; run the licm walk
when enabled; run the (stubbed) cse walk when enabled, whose interrupted
branch re-checks the greedy result; return the target with success.  The
second component is the final payload IR. -/
def applyPatternsApplyToOne {α β : Type} (host : HostServices α β)
    (cfg : Config) (targetIsolatedFromAbove : Bool) (payload : α) :
    Diag × α :=
  if !targetIsolatedFromAbove then
    (Diag.definiteFailure FailureMsg.notIsolatedFromAbove, payload)
  else
    let patterns := buildPatterns cfg
    let res := host.applyOpPatternsAndFold patterns payload
    if !res.2 then (Diag.definiteFailure FailureMsg.greedyPatternsFailed, res.1)
    else
      let p2 := if cfg.licm then host.licmAndPromoteOnFuncs res.1 else res.1
      if cfg.cse then
        let walkRes := cseWalk (host.funcOps p2)
        if walkRes.2 then
          -- interrupted branch: re-raise only if the greedy result had
          -- failed, which it has not at this point; fall through.
          (Diag.success, p2)
        else (Diag.success, p2)
      else (Diag.success, p2)

end Patterns

namespace Hoist

/-- Whether an alloc-like op is heap memref.alloc or stack memref.alloca. -/
inductive AllocKind
  | alloc
  | alloca
deriving DecidableEq

/-- One dimension of a memref shape: a static extent or a dynamic one. -/
inductive DimSize
  | static (size : Nat)
  | dyn
deriving DecidableEq

/-- A memref type: its shape and an element-type identifier. -/
structure MemRefType where
  shape : List DimSize
  elementType : Nat
deriving DecidableEq

/-- An OpFoldResult: a static index attribute or an SSA value. -/
inductive OFR
  | attr (value : Nat)
  | val (value : Nat)
deriving DecidableEq

/-- The payload of an operation, covering the op kinds the hoister and the
share-operands transform inspect; every other op is genericOp. -/
inductive OpData
  | allocLike (kind : AllocKind) (result : Nat) (ty : MemRefType)
      (dynamicSizes : List Nat) (alignment : Option Nat)
  | deallocOp (memref : Nat)
  | storeOp (value : Nat) (memref : Nat)
  | subViewOp (result : Nat) (source : Nat)
      (offsets : List OFR) (sizes : List OFR) (strides : List OFR)
  | linalgOp (inputs : List Nat) (outputs : List Nat) (results : List Nat)
  | extractSliceOp (result : Nat) (source : Nat)
      (offsets : List OFR) (sizes : List OFR) (strides : List OFR)
  | parallelInsertSliceOp (source : Nat) (dest : Nat)
      (offsets : List OFR) (sizes : List OFR) (strides : List OFR)
  | retOp (operands : List Nat)
  | genericOp (operands : List Nat) (results : List Nat)
deriving DecidableEq

/-- The SSA values among a list of OpFoldResults. -/
def ofrOperands (l : List OFR) : List Nat :=
  l.filterMap fun x => match x with | OFR.attr _ => none | OFR.val v => some v

/-- The operand values of an op. -/
def OpData.operandValues : OpData → List Nat
  | OpData.allocLike _ _ _ dynamicSizes _ => dynamicSizes
  | OpData.deallocOp m => [m]
  | OpData.storeOp v m => [v, m]
  | OpData.subViewOp _ s offs szs strs =>
      s :: (ofrOperands offs ++ ofrOperands szs ++ ofrOperands strs)
  | OpData.linalgOp ins outs _ => ins ++ outs
  | OpData.extractSliceOp _ s offs szs strs =>
      s :: (ofrOperands offs ++ ofrOperands szs ++ ofrOperands strs)
  | OpData.parallelInsertSliceOp src dst offs szs strs =>
      src :: dst :: (ofrOperands offs ++ ofrOperands szs ++ ofrOperands strs)
  | OpData.retOp ops => ops
  | OpData.genericOp ops _ => ops

/-- The result values of an op. -/
def OpData.resultValues : OpData → List Nat
  | OpData.allocLike _ r _ _ _ => [r]
  | OpData.deallocOp _ => []
  | OpData.storeOp _ _ => []
  | OpData.subViewOp r _ _ _ _ => [r]
  | OpData.linalgOp _ _ rs => rs
  | OpData.extractSliceOp r _ _ _ _ => [r]
  | OpData.parallelInsertSliceOp _ _ _ _ _ => []
  | OpData.retOp _ => []
  | OpData.genericOp _ rs => rs

/-- Replace a single value occurrence. -/
def substVal (old new v : Nat) : Nat :=
  if v = old then new else v

/-- Replace a value occurrence inside an OpFoldResult. -/
def substOFR (old new : Nat) : OFR → OFR
  | OFR.attr a => OFR.attr a
  | OFR.val v => OFR.val (substVal old new v)

/-- Replace every use of a value in an op's operands. -/
def OpData.substUse (old new : Nat) : OpData → OpData
  | OpData.allocLike k r ty ds al =>
      OpData.allocLike k r ty (ds.map (substVal old new)) al
  | OpData.deallocOp m => OpData.deallocOp (substVal old new m)
  | OpData.storeOp v m =>
      OpData.storeOp (substVal old new v) (substVal old new m)
  | OpData.subViewOp r s offs szs strs =>
      OpData.subViewOp r (substVal old new s) (offs.map (substOFR old new))
        (szs.map (substOFR old new)) (strs.map (substOFR old new))
  | OpData.linalgOp ins outs rs =>
      OpData.linalgOp (ins.map (substVal old new)) (outs.map (substVal old new)) rs
  | OpData.extractSliceOp r s offs szs strs =>
      OpData.extractSliceOp r (substVal old new s) (offs.map (substOFR old new))
        (szs.map (substOFR old new)) (strs.map (substOFR old new))
  | OpData.parallelInsertSliceOp src dst offs szs strs =>
      OpData.parallelInsertSliceOp (substVal old new src) (substVal old new dst)
        (offs.map (substOFR old new)) (szs.map (substOFR old new))
        (strs.map (substOFR old new))
  | OpData.retOp ops => OpData.retOp (ops.map (substVal old new))
  | OpData.genericOp ops rs => OpData.genericOp (ops.map (substVal old new)) rs

/-- An operation: an identity (mirroring C++ pointer identity) plus its
payload. -/
structure Operation where
  opid : Nat
  data : OpData
deriving DecidableEq

/-- A block: a list of operations, the last one its terminator. -/
structure Block where
  ops : List Operation
deriving DecidableEq

/-- A function body: the entry block of its region, plus the blocks nested
inside regions of its ops (where hoistable allocations live). -/
structure FuncOp where
  entry : Block
  nested : List Block
deriving DecidableEq

/-- All operations of a function, entry block first. -/
def FuncOp.allOps (f : FuncOp) : List Operation :=
  f.entry.ops ++ (f.nested.map Block.ops).flatten

/-- The users of a value: every op with the value among its operands. -/
def usersOf (f : FuncOp) (v : Nat) : List Operation :=
  f.allOps.filter fun op => decide (v ∈ op.data.operandValues)

/-- Embeds isUseReplaceableWithSubview (lines 556-560): a use is
replaceable when its owner is a linalg op, a dealloc, a store or a
subview. -/
def isUseReplaceableWithSubview (user : OpData) : Bool :=
  match user with
  | OpData.linalgOp _ _ _ => true
  | OpData.deallocOp _ => true
  | OpData.storeOp _ _ => true
  | OpData.subViewOp _ _ _ _ _ => true
  | _ => false

/-- Insert an op at the start of the function's entry block. -/
def insertAtEntryStart (f : FuncOp) (op : Operation) : FuncOp :=
  { f with entry := ⟨op :: f.entry.ops⟩ }

/-- Insert an element immediately before the last element of a list. -/
def insertBeforeLast {γ : Type} (l : List γ) (x : γ) : List γ :=
  l.dropLast ++ x :: (match l.getLast? with | some t => [t] | none => [])

/-- Insert an op immediately before the entry block's terminator (its last
op), mirroring setInsertionPoint(funcOp.getBody().front().getTerminator()). -/
def insertBeforeEntryTerminator (f : FuncOp) (op : Operation) : FuncOp :=
  { f with entry := ⟨insertBeforeLast f.entry.ops op⟩ }

/-- Insert an op immediately before the op with the given identity. -/
def insertBeforeInBlock (targetOpid : Nat) (newOp : Operation) :
    List Operation → List Operation
  | [] => []
  | o :: rest =>
    if o.opid = targetOpid then newOp :: o :: rest
    else o :: insertBeforeInBlock targetOpid newOp rest

/-- Insert an op immediately before the op with the given identity,
wherever it lives in the function. -/
def insertBeforeOp (f : FuncOp) (targetOpid : Nat) (newOp : Operation) :
    FuncOp :=
  { entry := ⟨insertBeforeInBlock targetOpid newOp f.entry.ops⟩,
    nested := f.nested.map fun b => ⟨insertBeforeInBlock targetOpid newOp b.ops⟩ }

/-- Embeds the per-dimension loop of hoistOneStaticallyBoundAllocation
(lines 513-527): keep a static extent and record it as a static subview
size; for a dynamic extent consume the next dynamic size operand, ask the
host analysis for a constant upper bound, and abandon the hoist with none
when no bound is derivable; otherwise record the bound as the static shape
and the original dynamic size as the subview size. -/
def computeShapeAndSizes (getConstantUpperBoundForIndex : Nat → Option Nat) :
    List DimSize → List Nat → Option (List Nat × List OFR)
  | [], _ => some ([], [])
  | DimSize.static dimSize :: rest, dynamicSizes =>
    match computeShapeAndSizes getConstantUpperBoundForIndex rest dynamicSizes with
    | none => none
    | some (staticShape, subviewSizes) =>
      some (dimSize :: staticShape, OFR.attr dimSize :: subviewSizes)
  | DimSize.dyn :: rest, dynamicSizes =>
    match dynamicSizes with
    | [] => none
    | dynamicSize :: remaining =>
      match getConstantUpperBoundForIndex dynamicSize with
      | none => none
      | some ub =>
        match computeShapeAndSizes getConstantUpperBoundForIndex rest remaining with
        | none => none
        | some (staticShape, subviewSizes) =>
          some (ub :: staticShape, OFR.val dynamicSize :: subviewSizes)

/-- Embeds hoistOneStaticallyBoundAllocation (lines 484-551).  `fresh` is
the next unused identity for created ops and values; `insertionPoint` is
the identity of the op the builder currently points at (the original
allocation).  Static case: create an identical allocation at the entry
block start and, for heap allocs, a dealloc before the entry terminator.
Dynamic case: bound every dynamic dimension (abandoning with none if one
has no bound), allocate the bounded shape at entry, create a zero-offset
unit-stride subview of it at the insertion point, and for heap allocs a
dealloc of the entry allocation before the entry terminator.  Returns the
replacement value, the rewritten function, and the next fresh identity. -/
def hoistOneStaticallyBoundAllocation
    (getConstantUpperBoundForIndex : Nat → Option Nat) (kind : AllocKind)
    (funcOp : FuncOp) (fresh : Nat) (insertionPoint : Nat)
    (allocLikeType : MemRefType) (dynamicSizes : List Nat)
    (alignment : Option Nat) : Option (Nat × FuncOp × Nat) :=
  if dynamicSizes.isEmpty then
    let allocation : Operation :=
      ⟨fresh, OpData.allocLike kind fresh allocLikeType [] alignment⟩
    let funcOp := insertAtEntryStart funcOp allocation
    if kind = AllocKind.alloc then
      some (fresh,
        insertBeforeEntryTerminator funcOp ⟨fresh + 1, OpData.deallocOp fresh⟩,
        fresh + 2)
    else
      some (fresh, funcOp, fresh + 1)
  else
    match computeShapeAndSizes getConstantUpperBoundForIndex
        allocLikeType.shape dynamicSizes with
    | none => none
    | some (staticShape, subviewSizes) =>
      let rank := allocLikeType.shape.length
      let offsets : List OFR := List.replicate rank (OFR.attr 0)
      let strides : List OFR := List.replicate rank (OFR.attr 1)
      let allocationType : MemRefType :=
        ⟨staticShape.map DimSize.static, allocLikeType.elementType⟩
      let allocation : Operation :=
        ⟨fresh, OpData.allocLike kind fresh allocationType [] alignment⟩
      let funcOp := insertAtEntryStart funcOp allocation
      let funcOp := insertBeforeOp funcOp insertionPoint
        ⟨fresh + 1, OpData.subViewOp (fresh + 1) fresh offsets subviewSizes strides⟩
      if kind = AllocKind.alloc then
        some (fresh + 1,
          insertBeforeEntryTerminator funcOp ⟨fresh + 2, OpData.deallocOp fresh⟩,
          fresh + 3)
      else
        some (fresh + 1, funcOp, fresh + 2)

/-- Embeds the op-taking overload (lines 562-571): point the builder at
the allocation and hoist using its type, dynamic sizes and alignment. -/
def hoistOneStaticallyBoundAllocationOp
    (getConstantUpperBoundForIndex : Nat → Option Nat) (funcOp : FuncOp)
    (fresh : Nat) (allocLikeOp : Operation) : Option (Nat × FuncOp × Nat) :=
  match allocLikeOp.data with
  | OpData.allocLike kind _ ty dynamicSizes alignment =>
    hoistOneStaticallyBoundAllocation getConstantUpperBoundForIndex kind
      funcOp fresh allocLikeOp.opid ty dynamicSizes alignment
  | _ => none

/-- The single result of an alloc-like op (0 for other ops). -/
def allocResult (op : Operation) : Nat :=
  match op.data with
  | OpData.allocLike _ r _ _ _ => r
  | _ => 0

/-- Embeds the candidate filter of the walk (lines 579-592): an alloc-like
op of the instantiated kind, not in the entry block, with either no
dynamic sizes or all uses replaceable with a subview. -/
def isHoistableAllocLike (kind : AllocKind) (f : FuncOp) (op : Operation) :
    Bool :=
  match op.data with
  | OpData.allocLike k r _ dynamicSizes _ =>
    decide (k = kind) &&
    !(f.entry.ops.any fun o => o.opid == op.opid) &&
    (dynamicSizes.isEmpty ||
      (usersOf f r).all fun u => isUseReplaceableWithSubview u.data)
  | _ => false

/-- The hoistable alloc-likes collected by the walk. -/
def collectHoistableAllocLikes (kind : AllocKind) (f : FuncOp) :
    List Operation :=
  f.allOps.filter (isHoistableAllocLike kind f)

/-- Replace every use of a value throughout the function. -/
def substAllUses (f : FuncOp) (old new : Nat) : FuncOp :=
  { entry := ⟨f.entry.ops.map fun o => ⟨o.opid, o.data.substUse old new⟩⟩,
    nested := f.nested.map fun b =>
      ⟨b.ops.map fun o => ⟨o.opid, o.data.substUse old new⟩⟩ }

/-- Erase the op with the given identity from the function. -/
def eraseOpById (f : FuncOp) (oid : Nat) : FuncOp :=
  { entry := ⟨f.entry.ops.filter fun o => !(o.opid == oid)⟩,
    nested := f.nested.map fun b => ⟨b.ops.filter fun o => !(o.opid == oid)⟩ }

/-- rewriter.replaceOp: redirect all uses of the alloc-like op's result to
the replacement value, then erase the op. -/
def replaceOpWith (f : FuncOp) (op : Operation) (replacementVal : Nat) :
    FuncOp :=
  eraseOpById (substAllUses f (allocResult op) replacementVal) op.opid

/-- Whether an op is a memref.dealloc. -/
def isDeallocUser (op : Operation) : Bool :=
  match op.data with
  | OpData.deallocOp _ => true
  | _ => false

/-- Embeds the per-candidate body of the hoist loop (lines 595-624):
record the dealloc users, hoist; on failure leave everything untouched;
on success replace the original allocation with the replacement value and
erase the recorded deallocs. -/
def processOneAllocLike (getConstantUpperBoundForIndex : Nat → Option Nat)
    (acc : FuncOp × Nat) (allocLikeOp : Operation) : FuncOp × Nat :=
  let funcOp := acc.1
  let fresh := acc.2
  let deallocOps := (usersOf funcOp (allocResult allocLikeOp)).filter isDeallocUser
  match hoistOneStaticallyBoundAllocationOp getConstantUpperBoundForIndex
      funcOp fresh allocLikeOp with
  | none => (funcOp, fresh)
  | some (replacementVal, newFunc, newFresh) =>
    let newFunc := replaceOpWith newFunc allocLikeOp replacementVal
    let newFunc := deallocOps.foldl (fun fn d => eraseOpById fn d.opid) newFunc
    (newFunc, newFresh)

/-- Embeds hoistStaticallyBoundAllocationsInFunc (lines 573-625): collect
the hoistable alloc-likes, then hoist and replace each in turn. -/
def hoistStaticallyBoundAllocationsInFunc
    (getConstantUpperBoundForIndex : Nat → Option Nat) (kind : AllocKind)
    (funcOp : FuncOp) (fresh : Nat) : FuncOp × Nat :=
  (collectHoistableAllocLikes kind funcOp).foldl
    (processOneAllocLike getConstantUpperBoundForIndex) (funcOp, fresh)

/-- Embeds transform::HoistStaticAllocOp::applyToOne (lines 657-664): run
the hoister for memref.alloc over the function and always report
success. -/
def hoistStaticAllocApplyToOne
    (getConstantUpperBoundForIndex : Nat → Option Nat) (funcOp : FuncOp)
    (fresh : Nat) : Diag × FuncOp × Nat :=
  (Diag.success,
    hoistStaticallyBoundAllocationsInFunc getConstantUpperBoundForIndex
      AllocKind.alloc funcOp fresh)

/-- All identities and values occurring in a function are below n. -/
def FreshFor (n : Nat) (f : FuncOp) : Prop :=
  ∀ op ∈ f.allOps, op.opid < n ∧ (∀ v ∈ op.data.operandValues, v < n) ∧
    (∀ v ∈ op.data.resultValues, v < n)

instance (n : Nat) (f : FuncOp) : Decidable (FreshFor n f) := by
  unfold FreshFor
  infer_instance

end Hoist

namespace Share

/-- An scf.forall op as seen by ShareForallOperandsOp: its output (shared)
operands, the block arguments tied to them, the ops of its body region,
and the yielding ops of its terminator's in_parallel region. -/
structure ForallOp where
  outputs : List Nat
  outputBlockArguments : List Nat
  bodyOps : List Hoist.Operation
  yieldingOps : List Hoist.Operation
deriving DecidableEq

/-- The number of uses of a value: its occurrences as an output operand of
the forall op itself plus its occurrences as an operand of body or
yielding ops. -/
def numUses (f : ForallOp) (v : Nat) : Nat :=
  f.outputs.count v +
    ((f.bodyOps ++ f.yieldingOps).map fun op =>
      op.data.operandValues.count v).sum

/-- The users of a value among body and yielding ops. -/
def getUsers (f : ForallOp) (v : Nat) : List Hoist.Operation :=
  (f.bodyOps ++ f.yieldingOps).filter fun op =>
    decide (v ∈ op.data.operandValues)

/-- Embeds isMatchingParallelInsertSlice (lines 709-721): a
parallel_insert_slice whose destination is the block argument and whose
mixed offsets, sizes and strides equal those of the extract_slice. -/
def isMatchingParallelInsertSlice (bbArg : Nat)
    (offsets sizes strides : List Hoist.OFR) (op : Hoist.Operation) : Bool :=
  match op.data with
  | Hoist.OpData.parallelInsertSliceOp _ dst offs szs strs =>
    decide (dst = bbArg) && decide (offs = offsets) &&
      decide (szs = sizes) && decide (strs = strides)
  | _ => false

/-- Assign the extract_slice op's source to the block argument (the
updateRootInPlace mutation at lines 728-730). -/
def updateExtractSliceSource (f : ForallOp) (esOpid : Nat) (bbArg : Nat) :
    ForallOp :=
  { f with bodyOps := f.bodyOps.map fun op =>
      if op.opid = esOpid then
        match op.data with
        | Hoist.OpData.extractSliceOp r _ offs szs strs =>
          ⟨op.opid, Hoist.OpData.extractSliceOp r bbArg offs szs strs⟩
        | _ => op
      else op }

/-- Embeds the loop body of ShareForallOperandsOp::applyToOne (lines
680-731): an out-of-range index is a definite failure; an operand without
exactly 2 uses, without an extract_slice user, or without a matching
parallel_insert_slice is skipped; otherwise the extract_slice source is
promoted to the block argument. -/
def shareLoop : List Int → ForallOp → Diag × ForallOp
  | [], forallOp => (Diag.success, forallOp)
  | outputIdx :: rest, forallOp =>
    if outputIdx < 0 ∨ (forallOp.outputs.length : Int) ≤ outputIdx then
      (Diag.definiteFailure FailureMsg.operandIdxOverflow, forallOp)
    else
      let toShare := (forallOp.outputs.get? outputIdx.toNat).getD 0
      if numUses forallOp toShare ≠ 2 then shareLoop rest forallOp
      else
        match (getUsers forallOp toShare).find? (fun u =>
            match u.data with
            | Hoist.OpData.extractSliceOp _ _ _ _ _ => true
            | _ => false) with
        | none => shareLoop rest forallOp
        | some extractSliceUser =>
          let bbArg := (forallOp.outputBlockArguments.get? outputIdx.toNat).getD 0
          match extractSliceUser.data with
          | Hoist.OpData.extractSliceOp _ _ offsets sizes strides =>
            if forallOp.yieldingOps.any
                (isMatchingParallelInsertSlice bbArg offsets sizes strides) then
              shareLoop rest
                (updateExtractSliceSource forallOp extractSliceUser.opid bbArg)
            else shareLoop rest forallOp
          | _ => shareLoop rest forallOp

/-- Embeds transform::ShareForallOperandsOp::applyToOne (lines 670-735).
A local vector is filled with all output indices when the attribute is
empty (intended as "share everything"), but the loop then iterates over
the original attribute, so an empty attribute shares nothing. -/
def shareForallApplyToOne (shareOperandsAttr : List Int)
    (forallOp : ForallOp) : Diag × ForallOp :=
  let shareOperands : List Int :=
    if shareOperandsAttr.isEmpty then
      (List.range forallOp.outputs.length).map Int.ofNat
    else shareOperandsAttr
  -- for (int64_t outputIdx : getShareOperands()) — the original attribute.
  shareLoop shareOperandsAttr forallOp

end Share

/-- A trivial host over Nat payloads used as a concrete instance. -/
def hostW : Patterns.HostServices Nat Unit where
  applyOpPatternsAndFold := fun _ p => (p, true)
  licmAndPromoteOnFuncs := id
  funcOps := fun _ => []

/-- A concrete toggle configuration with everything enabled. -/
def cfgW : Patterns.Config :=
  ⟨true, true, true, true, true, true, true, true, true, true, true, true,
    true, true, true, true, true, true, true, true, true, true, true⟩

/-- A host upper-bound analysis that never derives a bound, for
witnesses. -/
def ubNone : Nat → Option Nat := fun _ => none

/-- A host upper-bound analysis mapping every value to the bound 8, for
witnesses. -/
def ubEight : Nat → Option Nat := fun _ => some 8

/-- A concrete function for the static-hoist witness: a return in the
entry block; a nested block holding a static memref.alloc, a store into
it and a dealloc of it. -/
def fStatic : Hoist.FuncOp :=
  ⟨⟨[⟨0, Hoist.OpData.retOp []⟩]⟩,
    [⟨[⟨1, Hoist.OpData.allocLike Hoist.AllocKind.alloc 10
          ⟨[Hoist.DimSize.static 4], 0⟩ [] none⟩,
      ⟨2, Hoist.OpData.storeOp 5 10⟩,
      ⟨3, Hoist.OpData.deallocOp 10⟩]⟩]⟩

/-- The alloc op inside fStatic. -/
def aStatic : Hoist.Operation :=
  ⟨1, Hoist.OpData.allocLike Hoist.AllocKind.alloc 10
      ⟨[Hoist.DimSize.static 4], 0⟩ [] none⟩

/-- A concrete function for the dynamic-hoist witnesses: a return in the
entry block; a nested block holding a dynamically sized memref.alloc
(shape 2 × dynamic with size operand 6) and a store into it. -/
def fDyn : Hoist.FuncOp :=
  ⟨⟨[⟨0, Hoist.OpData.retOp []⟩]⟩,
    [⟨[⟨1, Hoist.OpData.allocLike Hoist.AllocKind.alloc 10
          ⟨[Hoist.DimSize.static 2, Hoist.DimSize.dyn], 0⟩ [6] none⟩,
      ⟨2, Hoist.OpData.storeOp 5 10⟩]⟩]⟩

/-- The alloc op inside fDyn. -/
def aDyn : Hoist.Operation :=
  ⟨1, Hoist.OpData.allocLike Hoist.AllocKind.alloc 10
      ⟨[Hoist.DimSize.static 2, Hoist.DimSize.dyn], 0⟩ [6] none⟩

end Loopy

namespace Loopy

namespace Fusion

theorem svInsert_toFinset (s : List Nat) (v : Nat) :
    (svInsert s v).toFinset = insert v s.toFinset := by
  unfold svInsert
  by_cases h : v ∈ s
  · simp [h, List.mem_toFinset.mpr h, Finset.insert_eq_self.mpr]
  · simp [h, List.toFinset_append]
    rw [Finset.union_comm]
    rfl

theorem svInsert_nodup (s : List Nat) (v : Nat) (h : s.Nodup) :
    (svInsert s v).Nodup := by
  unfold svInsert
  by_cases hv : v ∈ s
  · simpa [hv]
  · simp only [hv, if_false]
    refine List.Nodup.append h (List.nodup_singleton v) ?_
    intro a ha hb
    rw [List.mem_singleton] at hb
    subst hb
    exact hv ha

theorem svInsertList_toFinset (vs s : List Nat) :
    (svInsertList s vs).toFinset = s.toFinset ∪ vs.toFinset := by
  induction vs generalizing s with
  | nil => simp [svInsertList]
  | cons v rest ih =>
    show (svInsertList (svInsert s v) rest).toFinset = _
    rw [ih, svInsert_toFinset]
    simp [Finset.insert_union, Finset.union_insert]

theorem svInsertList_nodup (vs s : List Nat) (h : s.Nodup) :
    (svInsertList s vs).Nodup := by
  induction vs generalizing s with
  | nil => exact h
  | cons v rest ih => exact ih _ (svInsert_nodup s v h)

theorem erase_toFinset_of_nodup (l : List Nat) (v : Nat) (h : l.Nodup) :
    (l.erase v).toFinset = l.toFinset.erase v := by
  induction l with
  | nil => simp
  | cons a rest ih =>
    rcases List.nodup_cons.mp h with ⟨ha, hrest⟩
    by_cases hav : a = v
    · subst hav
      rw [List.erase_cons_head]
      simp only [List.toFinset_cons]
      rw [Finset.erase_insert (by simpa using ha)]
    · rw [List.erase_cons_tail (by simp [hav])]
      simp only [List.toFinset_cons, ih hrest]
      rw [Finset.erase_insert_of_ne hav]

theorem addOperands_toFinset (o : Op) (s : List Nat) :
    (addOperands (some o) s).toFinset = s.toFinset ∪ operandFinset o := by
  unfold addOperands operandFinset
  by_cases h : o.isLinalg <;> simp [h, svInsertList_toFinset]

theorem addOperands_nodup (o : Op) (s : List Nat) (h : s.Nodup) :
    (addOperands (some o) s).Nodup := by
  unfold addOperands
  by_cases hl : o.isLinalg <;> simp [hl, svInsertList_nodup _ _ h]

end Fusion

/-- C1: for every producer→consumer fusion candidate (an operand with a
defining op) and any limit, the gate returns true iff the producer yields
exactly one result and the deduplicated operand set — the consumer's
operands under the input-only rule, minus the producer's single result,
union the producer's operands under the same rule — has size at most the
limit; in particular a producer without exactly one result is rejected. -/
theorem setFusedOpOperandLimit_iff (limit : Nat) (fo : Fusion.OpOperand)
    (p : Fusion.Op) (hp : fo.definingOp = some p) :
    (Fusion.setFusedOpOperandLimit limit fo = true ↔
      p.results.length = 1 ∧
        ((Fusion.operandFinset fo.owner).erase p.results.headI ∪
            Fusion.operandFinset p).card ≤ limit) ∧
    (p.results.length ≠ 1 → Fusion.setFusedOpOperandLimit limit fo = false) := by
  have hnodup0 : (Fusion.addOperands (some fo.owner) []).Nodup :=
    Fusion.addOperands_nodup _ _ List.nodup_nil
  have hnodup1 : ((Fusion.addOperands (some fo.owner) []).erase p.results.headI).Nodup :=
    List.Nodup.erase _ hnodup0
  have hnodup2 :
      (Fusion.addOperands (some p)
        ((Fusion.addOperands (some fo.owner) []).erase p.results.headI)).Nodup :=
    Fusion.addOperands_nodup _ _ hnodup1
  have hcard :
      (Fusion.addOperands (some p)
          ((Fusion.addOperands (some fo.owner) []).erase p.results.headI)).length =
        ((Fusion.operandFinset fo.owner).erase p.results.headI ∪
          Fusion.operandFinset p).card := by
    rw [← List.toFinset_card_of_nodup hnodup2]
    congr 1
    rw [Fusion.addOperands_toFinset,
      Fusion.erase_toFinset_of_nodup _ _ hnodup0,
      Fusion.addOperands_toFinset]
    simp
  constructor
  · unfold Fusion.setFusedOpOperandLimit
    rw [hp]
    by_cases hres : p.results.length = 1
    · simp only [hres, ne_eq, not_true_eq_false, if_false]
      rw [show Fusion.svRemove = fun s v => s.erase v from rfl]
      simp only [decide_eq_true_eq]
      rw [hcard]
      simp [hres]
    · simp [hres]
  · intro hres
    unfold Fusion.setFusedOpOperandLimit
    rw [hp]
    simp [hres]

/-- C1 witness: a concrete candidate with a single-result producer where
the gate and the set-cardinality description agree. -/
theorem setFusedOpOperandLimit_iff_witness :
    (Fusion.OpOperand.mk (some ⟨true, [1], [1], [100]⟩)
        ⟨true, [100, 2], [100, 2], [50]⟩).definingOp =
      some ⟨true, [1], [1], [100]⟩ ∧
    (Fusion.setFusedOpOperandLimit 3
        ⟨some ⟨true, [1], [1], [100]⟩, ⟨true, [100, 2], [100, 2], [50]⟩⟩ = true ↔
      (Fusion.Op.mk true [1] [1] [100]).results.length = 1 ∧
        ((Fusion.operandFinset ⟨true, [100, 2], [100, 2], [50]⟩).erase
              (Fusion.Op.mk true [1] [1] [100]).results.headI ∪
            Fusion.operandFinset ⟨true, [1], [1], [100]⟩).card ≤ 3) :=
  ⟨rfl, (setFusedOpOperandLimit_iff 3 _ _ rfl).1⟩

/-- C6: with the limit fixed at 3, a producer with one input and a consumer
with two further inputs besides the produced value (no other sharing)
gives a fused operand set of size 3 and the gate accepts; one more
distinct operand on either the consumer or the producer gives size 4 and
the gate rejects. -/
theorem setFusedOpOperandLimit_boundary :
    Fusion.setFusedOpOperandLimit 3
        ⟨some ⟨true, [1], [1], [100]⟩, ⟨true, [100, 2, 3], [100, 2, 3], [50]⟩⟩ = true ∧
    Fusion.setFusedOpOperandLimit 3
        ⟨some ⟨true, [1], [1], [100]⟩, ⟨true, [100, 2, 3, 4], [100, 2, 3, 4], [50]⟩⟩ = false ∧
    Fusion.setFusedOpOperandLimit 3
        ⟨some ⟨true, [1, 4], [1, 4], [100]⟩, ⟨true, [100, 2, 3], [100, 2, 3], [50]⟩⟩ = false := by
  decide

/-- C9: the fusion gate is a pure function of its arguments — in any
sequence of invocations, the answer at a given position depends only on
the input at that position, independently of all earlier or later calls. -/
theorem setFusedOpOperandLimit_pure (limit : Nat)
    (pre post : List Fusion.OpOperand) (fo : Fusion.OpOperand) :
    ((pre ++ fo :: post).map (Fusion.setFusedOpOperandLimit limit)).get?
        pre.length = some (Fusion.setFusedOpOperandLimit limit fo) := by
  induction pre with
  | nil => rfl
  | cons a rest ih => simpa using ih

/-- C2: on a target that is not isolated from above, ApplyPatternsOp fails
with a definite (non-retryable) failure for every toggle combination and
every host, and the payload IR is returned unchanged: the isolation check
precedes any pattern assembly or rewriting. -/
theorem applyPatterns_nonIsolated_definiteFailure {α β : Type}
    (host : Patterns.HostServices α β) (cfg : Patterns.Config) (payload : α) :
    Patterns.applyPatternsApplyToOne host cfg false payload =
      (Diag.definiteFailure FailureMsg.notIsolatedFromAbove, payload) := rfl

/-- C7: for an isolated target, the cse phase is a stub: the walk over
nested function ops never interrupts, and the whole operation's outcome
and final payload are identical whether the cse toggle is set or not. -/
theorem applyPatterns_cse_stub {α β : Type}
    (host : Patterns.HostServices α β) (cfg : Patterns.Config) (payload : α) :
    (∀ funcs : List β, (Patterns.cseWalk funcs).2 = false) ∧
    Patterns.applyPatternsApplyToOne host { cfg with cse := true } true payload =
      Patterns.applyPatternsApplyToOne host { cfg with cse := false } true payload :=
  ⟨fun _ => rfl, rfl⟩

/-- C8: once the payload is at a fixpoint of every enabled phase — the
greedy driver converges and returns it unchanged, and the licm walk fixes
it — a run of ApplyPatternsOp on an isolated target succeeds and leaves
the payload IR unchanged; hence a second run after convergence is a
no-op. -/
theorem applyPatterns_idempotentAtFixpoint {α β : Type}
    (host : Patterns.HostServices α β) (cfg : Patterns.Config) (payload : α)
    (hconv : host.applyOpPatternsAndFold (Patterns.buildPatterns cfg) payload
        = (payload, true))
    (hlicm : host.licmAndPromoteOnFuncs payload = payload) :
    Patterns.applyPatternsApplyToOne host cfg true payload =
      (Diag.success, payload) := by
  cases hli : cfg.licm <;> cases hcse : cfg.cse <;>
    simp [Patterns.applyPatternsApplyToOne, hconv, hli, hcse, hlicm,
      Patterns.cseWalk]

/-- C8 witness: a concrete converged payload on which the run succeeds
and returns the payload unchanged. -/
theorem applyPatterns_idempotentAtFixpoint_witness :
    hostW.applyOpPatternsAndFold (Patterns.buildPatterns cfgW) 7 = (7, true) ∧
    hostW.licmAndPromoteOnFuncs 7 = 7 ∧
    Patterns.applyPatternsApplyToOne hostW cfgW true 7 = (Diag.success, 7) :=
  ⟨rfl, rfl, applyPatterns_idempotentAtFixpoint hostW cfgW 7 rfl rfl⟩

namespace Hoist

theorem insertBeforeLast_cons_cons {γ : Type} (a b : γ) (t : List γ) (x : γ) :
    insertBeforeLast (a :: b :: t) x = a :: insertBeforeLast (b :: t) x := by
  simp [insertBeforeLast, List.dropLast_cons₂, List.getLast?_cons_cons]

theorem insertBeforeLast_cons_of_ne_nil {γ : Type} (a : γ) (l : List γ)
    (x : γ) (h : l ≠ []) :
    insertBeforeLast (a :: l) x = a :: insertBeforeLast l x := by
  cases l with
  | nil => exact absurd rfl h
  | cons b t => exact insertBeforeLast_cons_cons a b t x

theorem mem_insertBeforeLast {γ : Type} (l : List γ) (x op : γ) :
    op ∈ insertBeforeLast l x ↔ op = x ∨ op ∈ l := by
  induction l with
  | nil => simp [insertBeforeLast]
  | cons a t ih =>
    cases t with
    | nil => simp [insertBeforeLast]
    | cons b t2 =>
      rw [insertBeforeLast_cons_cons]
      simp only [List.mem_cons, ih]
      tauto

theorem map_eq_self_of_forall {γ : Type} (l : List γ) (g : γ → γ)
    (h : ∀ a ∈ l, g a = a) : l.map g = l := by
  induction l with
  | nil => rfl
  | cons a t ih =>
    simp only [List.map_cons, h a (List.mem_cons_self a t),
      ih fun b hb => h b (List.mem_cons_of_mem a hb)]

theorem flatten_map_filter (p : Operation → Bool)
    (bs : List (List Operation)) :
    (bs.map fun b => b.filter p).flatten = bs.flatten.filter p := by
  induction bs with
  | nil => rfl
  | cons b t ih =>
    simp only [List.map_cons, List.flatten_cons, List.filter_append, ih]

theorem flatten_map_map (g : Operation → Operation)
    (bs : List (List Operation)) :
    (bs.map fun b => b.map g).flatten = bs.flatten.map g := by
  induction bs with
  | nil => rfl
  | cons b t ih =>
    simp only [List.map_cons, List.flatten_cons, List.map_append, ih]

theorem allOps_substAllUses (f : FuncOp) (old new : Nat) :
    (substAllUses f old new).allOps =
      f.allOps.map fun o => ⟨o.opid, o.data.substUse old new⟩ := by
  simp only [substAllUses, FuncOp.allOps, List.map_append, List.map_map]
  rw [← flatten_map_map, List.map_map]
  rfl

theorem allOps_eraseOpById (f : FuncOp) (oid : Nat) :
    (eraseOpById f oid).allOps =
      f.allOps.filter fun o => !(o.opid == oid) := by
  simp only [eraseOpById, FuncOp.allOps, List.filter_append, List.map_map]
  rw [← flatten_map_filter, List.map_map]
  rfl

theorem entry_foldErase (ds : List Operation) (g : FuncOp)
    (h : ∀ o ∈ g.entry.ops, ∀ d ∈ ds, o.opid ≠ d.opid) :
    ((ds.foldl (fun fn d => eraseOpById fn d.opid) g)).entry.ops =
      g.entry.ops := by
  induction ds generalizing g with
  | nil => rfl
  | cons d t ih =>
    rw [List.foldl_cons]
    have hentry : (eraseOpById g d.opid).entry.ops = g.entry.ops := by
      have hkeep : ∀ o ∈ g.entry.ops, (!(o.opid == d.opid)) = true := by
        intro o ho
        simp only [Bool.not_eq_true', beq_eq_false_iff_ne, ne_eq]
        exact h o ho d (List.mem_cons_self d t)
      exact List.filter_eq_self.mpr hkeep
    have hsub : ∀ o ∈ (eraseOpById g d.opid).entry.ops, ∀ e ∈ t,
        o.opid ≠ e.opid := by
      intro o ho e he
      rw [hentry] at ho
      exact h o ho e (List.mem_cons_of_mem d he)
    rw [ih (eraseOpById g d.opid) hsub, hentry]

theorem mem_allOps_foldErase (ds : List Operation) (g : FuncOp)
    (op : Operation) :
    op ∈ ((ds.foldl (fun fn d => eraseOpById fn d.opid) g)).allOps ↔
      op ∈ g.allOps ∧ ∀ d ∈ ds, op.opid ≠ d.opid := by
  induction ds generalizing g with
  | nil => simp
  | cons d t ih =>
    rw [List.foldl_cons, ih, allOps_eraseOpById]
    simp only [List.mem_filter, Bool.not_eq_true', beq_eq_false_iff_ne, ne_eq,
      List.forall_mem_cons]
    tauto

theorem insertBeforeInBlock_eq_of_not_mem (tid : Nat) (x : Operation)
    (l : List Operation) (h : ∀ o ∈ l, o.opid ≠ tid) :
    insertBeforeInBlock tid x l = l := by
  induction l with
  | nil => rfl
  | cons a t ih =>
    rw [insertBeforeInBlock, if_neg (h a (List.mem_cons_self a t)),
      ih fun o ho => h o (List.mem_cons_of_mem a ho)]

theorem mem_insertBeforeInBlock (tid : Nat) (x : Operation)
    (l : List Operation) (op : Operation) :
    op ∈ insertBeforeInBlock tid x l ↔
      (op = x ∧ ∃ o ∈ l, o.opid = tid) ∨ op ∈ l := by
  induction l with
  | nil => simp [insertBeforeInBlock]
  | cons a t ih =>
    rw [insertBeforeInBlock]
    by_cases ha : a.opid = tid
    · rw [if_pos ha]
      simp only [List.mem_cons]
      constructor
      · rintro (h1 | h2)
        · exact Or.inl ⟨h1, a, Or.inl rfl, ha⟩
        · exact Or.inr h2
      · rintro (⟨h1, _⟩ | h2)
        · exact Or.inl h1
        · exact Or.inr h2
    · rw [if_neg ha]
      simp only [List.mem_cons, ih]
      constructor
      · rintro (h1 | ⟨h2, o, ho, hoid⟩ | h3)
        · exact Or.inr (Or.inl h1)
        · exact Or.inl ⟨h2, o, Or.inr ho, hoid⟩
        · exact Or.inr (Or.inr h3)
      · rintro (⟨h1, o, ho, hoid⟩ | h2 | h3)
        · rcases ho with rfl | ho2
          · exact absurd hoid ha
          · exact Or.inr (Or.inl ⟨h1, o, ho2, hoid⟩)
        · exact Or.inl h2
        · exact Or.inr (Or.inr h3)

theorem entry_insertBeforeOp_of_not_mem (f : FuncOp) (tid : Nat)
    (x : Operation) (h : ∀ o ∈ f.entry.ops, o.opid ≠ tid) :
    (insertBeforeOp f tid x).entry.ops = f.entry.ops := by
  show insertBeforeInBlock tid x f.entry.ops = f.entry.ops
  exact insertBeforeInBlock_eq_of_not_mem tid x f.entry.ops h

theorem mem_flatten_insertBlocks (tid : Nat) (x op : Operation)
    (bs : List Block) :
    op ∈ (((bs.map fun b => Block.mk (insertBeforeInBlock tid x b.ops)).map
        Block.ops).flatten) ↔
      (op = x ∧ ∃ o ∈ (bs.map Block.ops).flatten, o.opid = tid) ∨
        op ∈ (bs.map Block.ops).flatten := by
  induction bs with
  | nil => simp
  | cons b t ih =>
    simp only [List.map_cons, List.flatten_cons, List.mem_append, ih,
      mem_insertBeforeInBlock]
    constructor
    · rintro ((⟨h1, o, ho, hoid⟩ | h2) | (⟨h1, o, ho, hoid⟩ | h2))
      · exact Or.inl ⟨h1, o, Or.inl ho, hoid⟩
      · exact Or.inr (Or.inl h2)
      · exact Or.inl ⟨h1, o, Or.inr ho, hoid⟩
      · exact Or.inr (Or.inr h2)
    · rintro (⟨h1, o, ho, hoid⟩ | h2 | h3)
      · rcases ho with ho | ho
        · exact Or.inl (Or.inl ⟨h1, o, ho, hoid⟩)
        · exact Or.inr (Or.inl ⟨h1, o, ho, hoid⟩)
      · exact Or.inl (Or.inr h2)
      · exact Or.inr (Or.inr h3)

theorem mem_allOps_insertBeforeOp (f : FuncOp) (tid : Nat)
    (x op : Operation) :
    op ∈ (insertBeforeOp f tid x).allOps ↔
      (op = x ∧ ∃ o ∈ f.allOps, o.opid = tid) ∨ op ∈ f.allOps := by
  simp only [insertBeforeOp, FuncOp.allOps, List.mem_append,
    mem_insertBeforeInBlock, mem_flatten_insertBlocks]
  constructor
  · rintro ((⟨h1, o, ho, hoid⟩ | h2) | (⟨h1, o, ho, hoid⟩ | h2))
    · exact Or.inl ⟨h1, o, Or.inl ho, hoid⟩
    · exact Or.inr (Or.inl h2)
    · exact Or.inl ⟨h1, o, Or.inr ho, hoid⟩
    · exact Or.inr (Or.inr h2)
  · rintro (⟨h1, o, ho, hoid⟩ | h2 | h3)
    · rcases ho with ho | ho
      · exact Or.inl (Or.inl ⟨h1, o, ho, hoid⟩)
      · exact Or.inr (Or.inl ⟨h1, o, ho, hoid⟩)
    · exact Or.inl (Or.inr h2)
    · exact Or.inr (Or.inr h3)

theorem allOps_insertAtEntryStart (f : FuncOp) (op : Operation) :
    (insertAtEntryStart f op).allOps = op :: f.allOps := by
  simp [insertAtEntryStart, FuncOp.allOps]

theorem mem_allOps_insertBeforeEntryTerminator (f : FuncOp)
    (x op : Operation) :
    op ∈ (insertBeforeEntryTerminator f x).allOps ↔
      op = x ∨ op ∈ f.allOps := by
  simp only [insertBeforeEntryTerminator, FuncOp.allOps, List.mem_append,
    mem_insertBeforeLast]
  tauto

theorem substVal_of_ne (old new v : Nat) (h : v ≠ old) :
    substVal old new v = v := if_neg h

theorem substVal_self (old new : Nat) : substVal old new new = new := by
  unfold substVal
  split <;> rfl

theorem map_substVal_eq_self (old new : Nat) (l : List Nat)
    (h : old ∉ l) : l.map (substVal old new) = l := by
  apply map_eq_self_of_forall
  intro a ha
  exact substVal_of_ne old new a fun hc => h (hc ▸ ha)

theorem ofrOperands_map_substOFR (old new : Nat) (l : List OFR) :
    ofrOperands (l.map (substOFR old new)) =
      (ofrOperands l).map (substVal old new) := by
  induction l with
  | nil => rfl
  | cons a t ih =>
    cases a <;>
      simp only [List.map_cons, ofrOperands, List.filterMap_cons, substOFR] <;>
      simp only [ofrOperands] at ih <;> simp [ih]

theorem map_substOFR_eq_self (old new : Nat) (l : List OFR)
    (h : old ∉ ofrOperands l) : l.map (substOFR old new) = l := by
  induction l with
  | nil => rfl
  | cons a t ih =>
    cases a with
    | attr n =>
      have ht : old ∉ ofrOperands t := by
        simpa [ofrOperands, List.filterMap_cons] using h
      simp [substOFR, ih ht]
    | val v =>
      have h2 : ¬(old = v ∨ old ∈ ofrOperands t) := by
        simpa [ofrOperands, List.filterMap_cons] using h
      push_neg at h2
      simp [substOFR, substVal_of_ne old new v fun hc => h2.1 hc.symm,
        ih h2.2]

theorem not_mem_map_substVal (old new : Nat) (l : List Nat)
    (h : old ≠ new) : old ∉ l.map (substVal old new) := by
  intro hc
  rcases List.mem_map.mp hc with ⟨v, _, he⟩
  by_cases hvo : v = old
  · rw [substVal, if_pos hvo] at he
    exact h he.symm
  · rw [substVal, if_neg hvo] at he
    exact hvo he

theorem substUse_eq_self (d : OpData) (old new : Nat)
    (h : old ∉ d.operandValues) : d.substUse old new = d := by
  cases d with
  | allocLike k r ty ds al =>
    simp only [OpData.operandValues] at h
    simp [OpData.substUse, map_substVal_eq_self old new ds h]
  | deallocOp m =>
    have hm : m ≠ old := fun hc => h (by simp [OpData.operandValues, hc])
    simp [OpData.substUse, substVal_of_ne old new m hm]
  | storeOp v m =>
    have hv : v ≠ old := fun hc => h (by simp [OpData.operandValues, hc])
    have hm : m ≠ old := fun hc => h (by simp [OpData.operandValues, hc])
    simp [OpData.substUse, substVal_of_ne old new v hv,
      substVal_of_ne old new m hm]
  | subViewOp r s offs szs strs =>
    have hs : s ≠ old := fun hc => h (by simp [OpData.operandValues, hc])
    have h1 : old ∉ ofrOperands offs :=
      fun hc => h (by simp [OpData.operandValues, hc])
    have h2 : old ∉ ofrOperands szs :=
      fun hc => h (by simp [OpData.operandValues, hc])
    have h3 : old ∉ ofrOperands strs :=
      fun hc => h (by simp [OpData.operandValues, hc])
    simp [OpData.substUse, substVal_of_ne old new s hs,
      map_substOFR_eq_self old new offs h1,
      map_substOFR_eq_self old new szs h2,
      map_substOFR_eq_self old new strs h3]
  | linalgOp ins outs rs =>
    have h1 : old ∉ ins := fun hc => h (by simp [OpData.operandValues, hc])
    have h2 : old ∉ outs := fun hc => h (by simp [OpData.operandValues, hc])
    simp [OpData.substUse, map_substVal_eq_self old new ins h1,
      map_substVal_eq_self old new outs h2]
  | extractSliceOp r s offs szs strs =>
    have hs : s ≠ old := fun hc => h (by simp [OpData.operandValues, hc])
    have h1 : old ∉ ofrOperands offs :=
      fun hc => h (by simp [OpData.operandValues, hc])
    have h2 : old ∉ ofrOperands szs :=
      fun hc => h (by simp [OpData.operandValues, hc])
    have h3 : old ∉ ofrOperands strs :=
      fun hc => h (by simp [OpData.operandValues, hc])
    simp [OpData.substUse, substVal_of_ne old new s hs,
      map_substOFR_eq_self old new offs h1,
      map_substOFR_eq_self old new szs h2,
      map_substOFR_eq_self old new strs h3]
  | parallelInsertSliceOp src dst offs szs strs =>
    have hsrc : src ≠ old := fun hc => h (by simp [OpData.operandValues, hc])
    have hdst : dst ≠ old := fun hc => h (by simp [OpData.operandValues, hc])
    have h1 : old ∉ ofrOperands offs :=
      fun hc => h (by simp [OpData.operandValues, hc])
    have h2 : old ∉ ofrOperands szs :=
      fun hc => h (by simp [OpData.operandValues, hc])
    have h3 : old ∉ ofrOperands strs :=
      fun hc => h (by simp [OpData.operandValues, hc])
    simp [OpData.substUse, substVal_of_ne old new src hsrc,
      substVal_of_ne old new dst hdst,
      map_substOFR_eq_self old new offs h1,
      map_substOFR_eq_self old new szs h2,
      map_substOFR_eq_self old new strs h3]
  | retOp ops =>
    simp only [OpData.operandValues] at h
    simp [OpData.substUse, map_substVal_eq_self old new ops h]
  | genericOp ops rs =>
    simp only [OpData.operandValues] at h
    simp [OpData.substUse, map_substVal_eq_self old new ops h]

theorem operandValues_substUse (d : OpData) (old new : Nat) :
    (d.substUse old new).operandValues =
      d.operandValues.map (substVal old new) := by
  cases d <;>
    simp [OpData.substUse, OpData.operandValues, ofrOperands_map_substOFR,
      List.map_append]

theorem opid_ne_of_mem_entry_of_not_entry (f : FuncOp)
    (hnodup : (f.allOps.map Operation.opid).Nodup)
    (o : Operation) (ho : o ∈ f.entry.ops)
    (p : Operation) (hp : p ∈ f.allOps) (hpe : p ∉ f.entry.ops) :
    o.opid ≠ p.opid := by
  have hp2 : p ∈ (f.nested.map Block.ops).flatten := by
    rcases List.mem_append.mp hp with h1 | h2
    · exact absurd h1 hpe
    · exact h2
  have hdisj :
      (f.entry.ops.map Operation.opid).Disjoint
        (((f.nested.map Block.ops).flatten).map Operation.opid) := by
    rw [FuncOp.allOps, List.map_append] at hnodup
    exact List.disjoint_of_nodup_append hnodup
  intro he
  exact hdisj (List.mem_map_of_mem Operation.opid ho)
    (he ▸ List.mem_map_of_mem Operation.opid hp2)

theorem eq_of_mem_allOps_of_opid_eq (f : FuncOp)
    (hnodup : (f.allOps.map Operation.opid).Nodup)
    (a b : Operation) (ha : a ∈ f.allOps) (hb : b ∈ f.allOps)
    (h : a.opid = b.opid) : a = b :=
  List.inj_on_of_nodup_map hnodup ha hb h

theorem replace_erase_facts (f f2 : FuncOp) (allocLikeOp : Operation)
    (res rv : Nat)
    (hnodup : (f.allOps.map Operation.opid).Nodup)
    (hmem : allocLikeOp ∈ f.allOps)
    (hres : allocResult allocLikeOp = res)
    (hneq : res ≠ rv)
    (hf2 : ∀ op ∈ f.allOps, op ∈ f2.allOps)
    (ds : List Operation) (out : FuncOp)
    (hds : ds = (usersOf f res).filter isDeallocUser)
    (hout : out = ds.foldl (fun fn d => eraseOpById fn d.opid)
        (replaceOpWith f2 allocLikeOp rv)) :
    (∀ op ∈ out.allOps, op.opid ≠ allocLikeOp.opid) ∧
    (∀ dOp ∈ f.allOps, isDeallocUser dOp = true →
        res ∈ dOp.data.operandValues →
        ∀ op ∈ out.allOps, op.opid ≠ dOp.opid) ∧
    (∀ op ∈ f.allOps, op.opid ≠ allocLikeOp.opid →
        ¬(isDeallocUser op = true ∧ res ∈ op.data.operandValues) →
        Operation.mk op.opid (op.data.substUse res rv) ∈ out.allOps) ∧
    (∀ op ∈ out.allOps, res ∉ op.data.operandValues) := by
  subst hds hout
  have hg : (replaceOpWith f2 allocLikeOp rv).allOps =
      (f2.allOps.map fun o =>
        Operation.mk o.opid (o.data.substUse res rv)).filter
          fun o => !(o.opid == allocLikeOp.opid) := by
    rw [replaceOpWith, hres, allOps_eraseOpById, allOps_substAllUses]
  have hgmem : ∀ op, op ∈ (replaceOpWith f2 allocLikeOp rv).allOps ↔
      ((∃ o ∈ f2.allOps,
          Operation.mk o.opid (o.data.substUse res rv) = op) ∧
        op.opid ≠ allocLikeOp.opid) := by
    intro op
    rw [hg, List.mem_filter, List.mem_map]
    simp only [Bool.not_eq_true', beq_eq_false_iff_ne, ne_eq]
  have hdsfact : ∀ d ∈ (usersOf f res).filter isDeallocUser,
      d ∈ f.allOps ∧ res ∈ d.data.operandValues ∧ isDeallocUser d = true := by
    intro d hd
    rcases List.mem_filter.mp hd with ⟨hdu, hdd⟩
    rcases List.mem_filter.mp hdu with ⟨hdf, hdo⟩
    exact ⟨hdf, by simpa using hdo, hdd⟩
  refine ⟨?_, ?_, ?_, ?_⟩
  · intro op hop
    rcases (mem_allOps_foldErase _ _ op).mp hop with ⟨hopg, _⟩
    exact ((hgmem op).mp hopg).2
  · intro dOp hdOp hdd hdu op hop
    rcases (mem_allOps_foldErase _ _ op).mp hop with ⟨_, hall⟩
    refine hall dOp ?_
    exact List.mem_filter.mpr
      ⟨List.mem_filter.mpr ⟨hdOp, by simpa using hdu⟩, hdd⟩
  · intro op hop hne2 hnm
    refine (mem_allOps_foldErase _ _ _).mpr ⟨?_, ?_⟩
    · exact (hgmem _).mpr ⟨⟨op, hf2 op hop, rfl⟩, hne2⟩
    · intro d hd hc
      rcases hdsfact d hd with ⟨hdf, hdo, hdd⟩
      have : op = d :=
        eq_of_mem_allOps_of_opid_eq f hnodup op d hop hdf hc
      exact hnm ⟨this ▸ hdd, this ▸ hdo⟩
  · intro op hop
    rcases (mem_allOps_foldErase _ _ op).mp hop with ⟨hopg, _⟩
    rcases ((hgmem op).mp hopg).1 with ⟨o, _, rfl⟩
    show res ∉ (o.data.substUse res rv).operandValues
    rw [operandValues_substUse]
    exact not_mem_map_substVal res rv _ hneq

end Hoist

namespace Hoist

theorem computeShapeAndSizes_spec (ubF : Nat → Option Nat)
    (shape : List DimSize) (dyns : List Nat) (ss : List Nat) (svs : List OFR)
    (h : computeShapeAndSizes ubF shape dyns = some (ss, svs)) :
    ss.length = shape.length ∧ svs.length = shape.length ∧
    ∀ i, i < shape.length →
      (∀ n, shape[i]? = some (DimSize.static n) →
        ss[i]? = some n ∧ svs[i]? = some (OFR.attr n)) ∧
      (shape[i]? = some DimSize.dyn →
        ∃ d b, dyns[(shape.take i).countP fun s =>
            decide (s = DimSize.dyn)]? = some d ∧
          ubF d = some b ∧ ss[i]? = some b ∧ svs[i]? = some (OFR.val d)) := by
  induction shape generalizing dyns ss svs with
  | nil =>
    rw [computeShapeAndSizes] at h
    injection h with h2
    obtain ⟨rfl, rfl⟩ : ss = [] ∧ svs = [] :=
      ⟨(congrArg Prod.fst h2).symm, (congrArg Prod.snd h2).symm⟩
    refine ⟨rfl, rfl, ?_⟩
    intro i hi
    exact absurd hi (Nat.not_lt_zero i)
  | cons dim rest ih =>
    cases dim with
    | static n =>
      rw [computeShapeAndSizes] at h
      cases hrec : computeShapeAndSizes ubF rest dyns with
      | none => rw [hrec] at h; exact absurd h (by simp)
      | some p =>
        obtain ⟨s2, v2⟩ := p
        rw [hrec] at h
        injection h with h2
        obtain ⟨rfl, rfl⟩ : ss = n :: s2 ∧ svs = OFR.attr n :: v2 := by
          have := h2.symm
          exact ⟨congrArg Prod.fst this, congrArg Prod.snd this⟩
        obtain ⟨hl1, hl2, hspec⟩ := ih dyns s2 v2 hrec
        refine ⟨by simp [hl1], by simp [hl2], ?_⟩
        intro i hi
        cases i with
        | zero =>
          constructor
          · intro m hm
            simp only [List.getElem?_cons_zero, Option.some.injEq] at hm ⊢
            cases hm
            exact ⟨rfl, rfl⟩
          · intro hdyn
            simp at hdyn
        | succ i2 =>
          have hi2 : i2 < rest.length := Nat.lt_of_succ_lt_succ hi
          obtain ⟨hs, hd⟩ := hspec i2 hi2
          constructor
          · intro m hm
            simp only [List.getElem?_cons_succ] at hm ⊢
            exact hs m hm
          · intro hdyn
            simp only [List.getElem?_cons_succ] at hdyn ⊢
            have hcount : ((DimSize.static n :: rest).take (i2 + 1)).countP
                (fun s => decide (s = DimSize.dyn)) =
                (rest.take i2).countP (fun s => decide (s = DimSize.dyn)) := by
              simp [List.countP_cons]
            rw [hcount]
            exact hd hdyn
    | dyn =>
      cases dyns with
      | nil => simp [computeShapeAndSizes] at h
      | cons e drest =>
        rw [computeShapeAndSizes] at h
        cases hub : ubF e with
        | none => rw [hub] at h; exact absurd h (by simp)
        | some b =>
          rw [hub] at h
          cases hrec : computeShapeAndSizes ubF rest drest with
          | none => rw [hrec] at h; exact absurd h (by simp)
          | some p =>
            obtain ⟨s2, v2⟩ := p
            rw [hrec] at h
            injection h with h2
            obtain ⟨rfl, rfl⟩ : ss = b :: s2 ∧ svs = OFR.val e :: v2 := by
              have := h2.symm
              exact ⟨congrArg Prod.fst this, congrArg Prod.snd this⟩
            obtain ⟨hl1, hl2, hspec⟩ := ih drest s2 v2 hrec
            refine ⟨by simp [hl1], by simp [hl2], ?_⟩
            intro i hi
            cases i with
            | zero =>
              constructor
              · intro m hm
                simp at hm
              · intro _
                exact ⟨e, b, by simp, hub, by simp, by simp⟩
            | succ i2 =>
              have hi2 : i2 < rest.length := Nat.lt_of_succ_lt_succ hi
              obtain ⟨hs, hd⟩ := hspec i2 hi2
              constructor
              · intro m hm
                simp only [List.getElem?_cons_succ] at hm ⊢
                exact hs m hm
              · intro hdyn
                simp only [List.getElem?_cons_succ] at hdyn ⊢
                have hcount : ((DimSize.dyn :: rest).take (i2 + 1)).countP
                    (fun s => decide (s = DimSize.dyn)) =
                    (rest.take i2).countP
                      (fun s => decide (s = DimSize.dyn)) + 1 := by
                  simp [List.countP_cons]
                rw [hcount]
                simp only [List.getElem?_cons_succ]
                exact hd hdyn

theorem computeShapeAndSizes_sizes_sub (ubF : Nat → Option Nat)
    (shape : List DimSize) (dyns : List Nat) (ss : List Nat) (svs : List OFR)
    (h : computeShapeAndSizes ubF shape dyns = some (ss, svs)) :
    ∀ v ∈ ofrOperands svs, v ∈ dyns := by
  induction shape generalizing dyns ss svs with
  | nil =>
    rw [computeShapeAndSizes] at h
    injection h with h2
    have : svs = [] := (congrArg Prod.snd h2.symm)
    subst this
    intro v hv
    exact absurd hv (by simp [ofrOperands])
  | cons dim rest ih =>
    cases dim with
    | static n =>
      rw [computeShapeAndSizes] at h
      cases hrec : computeShapeAndSizes ubF rest dyns with
      | none => rw [hrec] at h; exact absurd h (by simp)
      | some p =>
        obtain ⟨s2, v2⟩ := p
        rw [hrec] at h
        injection h with h2
        have : svs = OFR.attr n :: v2 := (congrArg Prod.snd h2.symm)
        subst this
        intro v hv
        rw [ofrOperands, List.filterMap_cons] at hv
        exact ih dyns s2 v2 hrec v hv
    | dyn =>
      cases dyns with
      | nil => simp [computeShapeAndSizes] at h
      | cons e drest =>
        rw [computeShapeAndSizes] at h
        cases hub : ubF e with
        | none => rw [hub] at h; exact absurd h (by simp)
        | some b =>
          rw [hub] at h
          cases hrec : computeShapeAndSizes ubF rest drest with
          | none => rw [hrec] at h; exact absurd h (by simp)
          | some p =>
            obtain ⟨s2, v2⟩ := p
            rw [hrec] at h
            injection h with h2
            have : svs = OFR.val e :: v2 := (congrArg Prod.snd h2.symm)
            subst this
            intro v hv
            rw [ofrOperands, List.filterMap_cons] at hv
            rcases List.mem_cons.mp hv with rfl | hv2
            · exact List.mem_cons_self v drest
            · exact List.mem_cons_of_mem e (ih drest s2 v2 hrec v hv2)

theorem ofrOperands_replicate_attr (n k : Nat) :
    ofrOperands (List.replicate n (OFR.attr k)) = [] := by
  induction n with
  | zero => rfl
  | succ m ih =>
    rw [List.replicate_succ, ofrOperands, List.filterMap_cons]
    exact ih

theorem computeShapeAndSizes_unbounded_none (ubF : Nat → Option Nat)
    (shape : List DimSize) (dyns : List Nat) (i d : Nat)
    (hdim : shape[i]? = some DimSize.dyn)
    (hd : dyns[(shape.take i).countP fun s => decide (s = DimSize.dyn)]? =
      some d)
    (hub : ubF d = none) :
    computeShapeAndSizes ubF shape dyns = none := by
  induction shape generalizing dyns i with
  | nil => exact absurd hdim (by simp)
  | cons dim rest ih =>
    cases dim with
    | static n =>
      cases i with
      | zero => simp at hdim
      | succ i2 =>
        simp only [List.getElem?_cons_succ] at hdim
        have hcount : ((DimSize.static n :: rest).take (i2 + 1)).countP
            (fun s => decide (s = DimSize.dyn)) =
            (rest.take i2).countP (fun s => decide (s = DimSize.dyn)) := by
          simp [List.countP_cons]
        rw [hcount] at hd
        simp only [computeShapeAndSizes]
        rw [ih dyns i2 hdim hd]
    | dyn =>
      cases dyns with
      | nil => rfl
      | cons e drest =>
        cases i with
        | zero =>
          have : e = d := by
            have hc : ((DimSize.dyn :: rest).take 0).countP
                (fun s => decide (s = DimSize.dyn)) = 0 := rfl
            rw [hc] at hd
            simpa using hd
          subst this
          simp only [computeShapeAndSizes]
          rw [hub]
        | succ i2 =>
          simp only [List.getElem?_cons_succ] at hdim
          have hcount : ((DimSize.dyn :: rest).take (i2 + 1)).countP
              (fun s => decide (s = DimSize.dyn)) =
              (rest.take i2).countP (fun s => decide (s = DimSize.dyn)) + 1 := by
            simp [List.countP_cons]
          rw [hcount] at hd
          simp only [List.getElem?_cons_succ] at hd
          cases hub2 : ubF e with
          | none =>
            simp only [computeShapeAndSizes]
            rw [hub2]
          | some b =>
            simp only [computeShapeAndSizes]
            rw [hub2, ih drest i2 hdim hd]

end Hoist

/-- C3: a qualifying allocation with no dynamic sizes that is not in the
entry block is hoisted: one allocation of identical type is created at the
start of the entry block (for a heap memref.alloc together with a matching
dealloc immediately before the entry block's terminator), every other op
survives with its uses of the original allocation redirected to the new
one, the original allocation and all of its previously matched dealloc
users are deleted, and no op of the result uses the original value. -/
theorem hoistStaticAlloc_staticCase
    (ubF : Nat → Option Nat) (f : Hoist.FuncOp) (fresh : Nat)
    (allocLikeOp : Hoist.Operation) (kind : Hoist.AllocKind) (res : Nat)
    (ty : Hoist.MemRefType) (alignment : Option Nat)
    (hdata : allocLikeOp.data =
      Hoist.OpData.allocLike kind res ty [] alignment)
    (hnodup : (f.allOps.map Hoist.Operation.opid).Nodup)
    (hfresh : Hoist.FreshFor fresh f)
    (hne : f.entry.ops ≠ [])
    (hmem : allocLikeOp ∈ f.allOps)
    (hnotentry : allocLikeOp ∉ f.entry.ops)
    (hentryNoUse : ∀ op ∈ f.entry.ops, res ∉ op.data.operandValues) :
    ((Hoist.processOneAllocLike ubF (f, fresh) allocLikeOp).1.entry.ops =
        Hoist.Operation.mk fresh
            (Hoist.OpData.allocLike kind fresh ty [] alignment) ::
          (if kind = Hoist.AllocKind.alloc
            then Hoist.insertBeforeLast f.entry.ops
              (Hoist.Operation.mk (fresh + 1) (Hoist.OpData.deallocOp fresh))
            else f.entry.ops)) ∧
    (∀ op ∈ (Hoist.processOneAllocLike ubF (f, fresh) allocLikeOp).1.allOps,
        op.opid ≠ allocLikeOp.opid) ∧
    (∀ dOp ∈ f.allOps, Hoist.isDeallocUser dOp = true →
        res ∈ dOp.data.operandValues →
        ∀ op ∈ (Hoist.processOneAllocLike ubF (f, fresh) allocLikeOp).1.allOps,
          op.opid ≠ dOp.opid) ∧
    (∀ op ∈ f.allOps, op.opid ≠ allocLikeOp.opid →
        ¬(Hoist.isDeallocUser op = true ∧ res ∈ op.data.operandValues) →
        Hoist.Operation.mk op.opid (op.data.substUse res fresh) ∈
          (Hoist.processOneAllocLike ubF (f, fresh) allocLikeOp).1.allOps) ∧
    (∀ op ∈ (Hoist.processOneAllocLike ubF (f, fresh) allocLikeOp).1.allOps,
        res ∉ op.data.operandValues) := by
  have hres : Hoist.allocResult allocLikeOp = res := by
    simp [Hoist.allocResult, hdata]
  have horiglt : allocLikeOp.opid < fresh := (hfresh allocLikeOp hmem).1
  have hreslt : res < fresh := by
    have h2 := (hfresh allocLikeOp hmem).2.2
    rw [hdata] at h2
    exact h2 res (by simp [Hoist.OpData.resultValues])
  by_cases hk : kind = Hoist.AllocKind.alloc
  · subst hk
    have hstep : Hoist.processOneAllocLike ubF (f, fresh) allocLikeOp =
        (((Hoist.usersOf f res).filter Hoist.isDeallocUser).foldl
            (fun fn d => Hoist.eraseOpById fn d.opid)
            (Hoist.replaceOpWith
              (Hoist.insertBeforeEntryTerminator
                (Hoist.insertAtEntryStart f
                  ⟨fresh, Hoist.OpData.allocLike Hoist.AllocKind.alloc fresh
                    ty [] alignment⟩)
                ⟨fresh + 1, Hoist.OpData.deallocOp fresh⟩)
              allocLikeOp fresh),
          fresh + 2) := by
      simp [Hoist.processOneAllocLike, Hoist.hoistOneStaticallyBoundAllocationOp,
        hdata, Hoist.hoistOneStaticallyBoundAllocation, hres]
    have hE : (Hoist.insertBeforeEntryTerminator
        (Hoist.insertAtEntryStart f
          ⟨fresh, Hoist.OpData.allocLike Hoist.AllocKind.alloc fresh ty []
            alignment⟩)
        ⟨fresh + 1, Hoist.OpData.deallocOp fresh⟩).entry.ops =
      Hoist.Operation.mk fresh
          (Hoist.OpData.allocLike Hoist.AllocKind.alloc fresh ty [] alignment) ::
        Hoist.insertBeforeLast f.entry.ops
          ⟨fresh + 1, Hoist.OpData.deallocOp fresh⟩ := by
      show Hoist.insertBeforeLast (_ :: f.entry.ops) _ = _
      exact Hoist.insertBeforeLast_cons_of_ne_nil _ _ _ hne
    have hgentry : (Hoist.replaceOpWith
        (Hoist.insertBeforeEntryTerminator
          (Hoist.insertAtEntryStart f
            ⟨fresh, Hoist.OpData.allocLike Hoist.AllocKind.alloc fresh ty []
              alignment⟩)
          ⟨fresh + 1, Hoist.OpData.deallocOp fresh⟩)
        allocLikeOp fresh).entry.ops =
      ((Hoist.Operation.mk fresh
          (Hoist.OpData.allocLike Hoist.AllocKind.alloc fresh ty [] alignment) ::
        Hoist.insertBeforeLast f.entry.ops
          ⟨fresh + 1, Hoist.OpData.deallocOp fresh⟩).map fun o =>
            Hoist.Operation.mk o.opid (o.data.substUse res fresh)).filter
        fun o => !(o.opid == allocLikeOp.opid) := by
      rw [Hoist.replaceOpWith, hres]
      show ((Hoist.insertBeforeEntryTerminator _ _).entry.ops.map _).filter _ = _
      rw [hE]
    have hmapfix : ((Hoist.Operation.mk fresh
          (Hoist.OpData.allocLike Hoist.AllocKind.alloc fresh ty [] alignment) ::
        Hoist.insertBeforeLast f.entry.ops
          ⟨fresh + 1, Hoist.OpData.deallocOp fresh⟩).map fun o =>
            Hoist.Operation.mk o.opid (o.data.substUse res fresh)) =
        Hoist.Operation.mk fresh
            (Hoist.OpData.allocLike Hoist.AllocKind.alloc fresh ty [] alignment) ::
          Hoist.insertBeforeLast f.entry.ops
            ⟨fresh + 1, Hoist.OpData.deallocOp fresh⟩ := by
      apply Hoist.map_eq_self_of_forall
      intro a ha
      rcases List.mem_cons.mp ha with rfl | ha2
      · simp [Hoist.OpData.substUse]
      · rcases (Hoist.mem_insertBeforeLast _ _ _).mp ha2 with rfl | ha3
        · simp [Hoist.OpData.substUse, Hoist.substVal_self]
        · rw [Hoist.substUse_eq_self a.data res fresh (hentryNoUse a ha3)]
    have hfilterfix : ((Hoist.Operation.mk fresh
          (Hoist.OpData.allocLike Hoist.AllocKind.alloc fresh ty [] alignment) ::
        Hoist.insertBeforeLast f.entry.ops
          ⟨fresh + 1, Hoist.OpData.deallocOp fresh⟩).filter
            fun o => !(o.opid == allocLikeOp.opid)) =
        Hoist.Operation.mk fresh
            (Hoist.OpData.allocLike Hoist.AllocKind.alloc fresh ty [] alignment) ::
          Hoist.insertBeforeLast f.entry.ops
            ⟨fresh + 1, Hoist.OpData.deallocOp fresh⟩ := by
      apply List.filter_eq_self.mpr
      intro o ho
      simp only [Bool.not_eq_true', beq_eq_false_iff_ne, ne_eq]
      rcases List.mem_cons.mp ho with rfl | ho2
      · exact ne_of_gt horiglt
      · rcases (Hoist.mem_insertBeforeLast _ _ _).mp ho2 with rfl | ho3
        · exact ne_of_gt (lt_trans horiglt (Nat.lt_succ_self fresh))
        · exact Hoist.opid_ne_of_mem_entry_of_not_entry f hnodup o ho3
            allocLikeOp hmem hnotentry
    have hdsfacts : ∀ d ∈ (Hoist.usersOf f res).filter Hoist.isDeallocUser,
        d ∈ f.allOps ∧ res ∈ d.data.operandValues := by
      intro d hd
      rcases List.mem_filter.mp hd with ⟨hdu, _⟩
      rcases List.mem_filter.mp hdu with ⟨hdf, hdo⟩
      exact ⟨hdf, by simpa using hdo⟩
    have hfoldentry : (((Hoist.usersOf f res).filter Hoist.isDeallocUser).foldl
        (fun fn d => Hoist.eraseOpById fn d.opid)
        (Hoist.replaceOpWith
          (Hoist.insertBeforeEntryTerminator
            (Hoist.insertAtEntryStart f
              ⟨fresh, Hoist.OpData.allocLike Hoist.AllocKind.alloc fresh ty []
                alignment⟩)
            ⟨fresh + 1, Hoist.OpData.deallocOp fresh⟩)
          allocLikeOp fresh)).entry.ops =
        Hoist.Operation.mk fresh
            (Hoist.OpData.allocLike Hoist.AllocKind.alloc fresh ty [] alignment) ::
          Hoist.insertBeforeLast f.entry.ops
            ⟨fresh + 1, Hoist.OpData.deallocOp fresh⟩ := by
      rw [Hoist.entry_foldErase]
      · rw [hgentry, hmapfix, hfilterfix]
      · intro o ho d hd
        rcases hdsfacts d hd with ⟨hdf, hdo⟩
        have hdlt : d.opid < fresh := (hfresh d hdf).1
        have hdne : d ∉ f.entry.ops := fun hc => hentryNoUse d hc hdo
        rw [hgentry, hmapfix, hfilterfix] at ho
        rcases List.mem_cons.mp ho with rfl | ho2
        · exact ne_of_gt hdlt
        · rcases (Hoist.mem_insertBeforeLast _ _ _).mp ho2 with rfl | ho3
          · exact ne_of_gt (lt_trans hdlt (Nat.lt_succ_self fresh))
          · exact Hoist.opid_ne_of_mem_entry_of_not_entry f hnodup o ho3
              d hdf hdne
    have hf2 : ∀ op ∈ f.allOps,
        op ∈ (Hoist.insertBeforeEntryTerminator
          (Hoist.insertAtEntryStart f
            ⟨fresh, Hoist.OpData.allocLike Hoist.AllocKind.alloc fresh ty []
              alignment⟩)
          ⟨fresh + 1, Hoist.OpData.deallocOp fresh⟩).allOps := by
      intro op hop
      refine (Hoist.mem_allOps_insertBeforeEntryTerminator _ _ _).mpr
        (Or.inr ?_)
      rw [Hoist.allOps_insertAtEntryStart]
      exact List.mem_cons_of_mem _ hop
    obtain ⟨c2, c3, c4, c5⟩ := Hoist.replace_erase_facts f _ allocLikeOp res
      fresh hnodup hmem hres (ne_of_lt hreslt) hf2 _ _ rfl rfl
    rw [hstep]
    exact ⟨by simpa using hfoldentry, c2, c3, c4, c5⟩
  · have hstep : Hoist.processOneAllocLike ubF (f, fresh) allocLikeOp =
        (((Hoist.usersOf f res).filter Hoist.isDeallocUser).foldl
            (fun fn d => Hoist.eraseOpById fn d.opid)
            (Hoist.replaceOpWith
              (Hoist.insertAtEntryStart f
                ⟨fresh, Hoist.OpData.allocLike kind fresh ty [] alignment⟩)
              allocLikeOp fresh),
          fresh + 1) := by
      simp [Hoist.processOneAllocLike, Hoist.hoistOneStaticallyBoundAllocationOp,
        hdata, Hoist.hoistOneStaticallyBoundAllocation, hres, hk]
    have hgentry : (Hoist.replaceOpWith
        (Hoist.insertAtEntryStart f
          ⟨fresh, Hoist.OpData.allocLike kind fresh ty [] alignment⟩)
        allocLikeOp fresh).entry.ops =
      ((Hoist.Operation.mk fresh
          (Hoist.OpData.allocLike kind fresh ty [] alignment) ::
        f.entry.ops).map fun o =>
          Hoist.Operation.mk o.opid (o.data.substUse res fresh)).filter
        fun o => !(o.opid == allocLikeOp.opid) := by
      rw [Hoist.replaceOpWith, hres]
      rfl
    have hmapfix : ((Hoist.Operation.mk fresh
          (Hoist.OpData.allocLike kind fresh ty [] alignment) ::
        f.entry.ops).map fun o =>
          Hoist.Operation.mk o.opid (o.data.substUse res fresh)) =
        Hoist.Operation.mk fresh
            (Hoist.OpData.allocLike kind fresh ty [] alignment) ::
          f.entry.ops := by
      apply Hoist.map_eq_self_of_forall
      intro a ha
      rcases List.mem_cons.mp ha with rfl | ha2
      · simp [Hoist.OpData.substUse]
      · rw [Hoist.substUse_eq_self a.data res fresh (hentryNoUse a ha2)]
    have hfilterfix : ((Hoist.Operation.mk fresh
          (Hoist.OpData.allocLike kind fresh ty [] alignment) ::
        f.entry.ops).filter fun o => !(o.opid == allocLikeOp.opid)) =
        Hoist.Operation.mk fresh
            (Hoist.OpData.allocLike kind fresh ty [] alignment) ::
          f.entry.ops := by
      apply List.filter_eq_self.mpr
      intro o ho
      simp only [Bool.not_eq_true', beq_eq_false_iff_ne, ne_eq]
      rcases List.mem_cons.mp ho with rfl | ho2
      · exact ne_of_gt horiglt
      · exact Hoist.opid_ne_of_mem_entry_of_not_entry f hnodup o ho2
          allocLikeOp hmem hnotentry
    have hdsfacts : ∀ d ∈ (Hoist.usersOf f res).filter Hoist.isDeallocUser,
        d ∈ f.allOps ∧ res ∈ d.data.operandValues := by
      intro d hd
      rcases List.mem_filter.mp hd with ⟨hdu, _⟩
      rcases List.mem_filter.mp hdu with ⟨hdf, hdo⟩
      exact ⟨hdf, by simpa using hdo⟩
    have hfoldentry : (((Hoist.usersOf f res).filter Hoist.isDeallocUser).foldl
        (fun fn d => Hoist.eraseOpById fn d.opid)
        (Hoist.replaceOpWith
          (Hoist.insertAtEntryStart f
            ⟨fresh, Hoist.OpData.allocLike kind fresh ty [] alignment⟩)
          allocLikeOp fresh)).entry.ops =
        Hoist.Operation.mk fresh
            (Hoist.OpData.allocLike kind fresh ty [] alignment) ::
          f.entry.ops := by
      rw [Hoist.entry_foldErase]
      · rw [hgentry, hmapfix, hfilterfix]
      · intro o ho d hd
        rcases hdsfacts d hd with ⟨hdf, hdo⟩
        have hdlt : d.opid < fresh := (hfresh d hdf).1
        have hdne : d ∉ f.entry.ops := fun hc => hentryNoUse d hc hdo
        rw [hgentry, hmapfix, hfilterfix] at ho
        rcases List.mem_cons.mp ho with rfl | ho2
        · exact ne_of_gt hdlt
        · exact Hoist.opid_ne_of_mem_entry_of_not_entry f hnodup o ho2 d hdf
            hdne
    have hf2 : ∀ op ∈ f.allOps,
        op ∈ (Hoist.insertAtEntryStart f
          ⟨fresh, Hoist.OpData.allocLike kind fresh ty [] alignment⟩).allOps := by
      intro op hop
      rw [Hoist.allOps_insertAtEntryStart]
      exact List.mem_cons_of_mem _ hop
    obtain ⟨c2, c3, c4, c5⟩ := Hoist.replace_erase_facts f _ allocLikeOp res
      fresh hnodup hmem hres (ne_of_lt hreslt) hf2 _ _ rfl rfl
    rw [hstep]
    refine ⟨?_, c2, c3, c4, c5⟩
    simp only [hk, if_false]
    simpa using hfoldentry

/-- C4: a qualifying dynamically sized allocation all of whose dynamic
dimensions have a derivable constant upper bound is hoisted: one
allocation whose shape keeps each static dimension and substitutes the
computed bound for each dynamic dimension is created at the start of the
entry block, a zero-offset unit-stride subview of it — sized by the
original static extents and the original dynamic size operands — is
created, and every surviving op has its uses of the original allocation
redirected to the subview, leaving no use of the original value. -/
theorem hoistStaticAlloc_dynCase
    (ubF : Nat → Option Nat) (f : Hoist.FuncOp) (fresh : Nat)
    (allocLikeOp : Hoist.Operation) (kind : Hoist.AllocKind) (res : Nat)
    (ty : Hoist.MemRefType) (dynamicSizes : List Nat)
    (alignment : Option Nat) (staticShape : List Nat)
    (subviewSizes : List Hoist.OFR)
    (hdata : allocLikeOp.data =
      Hoist.OpData.allocLike kind res ty dynamicSizes alignment)
    (hdynne : dynamicSizes ≠ [])
    (hcss : Hoist.computeShapeAndSizes ubF ty.shape dynamicSizes =
      some (staticShape, subviewSizes))
    (hnodup : (f.allOps.map Hoist.Operation.opid).Nodup)
    (hfresh : Hoist.FreshFor fresh f)
    (hne : f.entry.ops ≠ [])
    (hmem : allocLikeOp ∈ f.allOps)
    (hnotentry : allocLikeOp ∉ f.entry.ops)
    (hentryNoUse : ∀ op ∈ f.entry.ops, res ∉ op.data.operandValues)
    (hresNotSize : res ∉ dynamicSizes) :
    ((Hoist.processOneAllocLike ubF (f, fresh) allocLikeOp).1.entry.ops =
        Hoist.Operation.mk fresh
            (Hoist.OpData.allocLike kind fresh
              ⟨staticShape.map Hoist.DimSize.static, ty.elementType⟩ []
              alignment) ::
          (if kind = Hoist.AllocKind.alloc
            then Hoist.insertBeforeLast f.entry.ops
              (Hoist.Operation.mk (fresh + 2) (Hoist.OpData.deallocOp fresh))
            else f.entry.ops)) ∧
    (Hoist.Operation.mk (fresh + 1)
        (Hoist.OpData.subViewOp (fresh + 1) fresh
          (List.replicate ty.shape.length (Hoist.OFR.attr 0)) subviewSizes
          (List.replicate ty.shape.length (Hoist.OFR.attr 1))) ∈
      (Hoist.processOneAllocLike ubF (f, fresh) allocLikeOp).1.allOps) ∧
    (staticShape.length = ty.shape.length ∧
      subviewSizes.length = ty.shape.length ∧
      ∀ i, i < ty.shape.length →
        (∀ n, ty.shape[i]? = some (Hoist.DimSize.static n) →
          staticShape[i]? = some n ∧
            subviewSizes[i]? = some (Hoist.OFR.attr n)) ∧
        (ty.shape[i]? = some Hoist.DimSize.dyn →
          ∃ d b, dynamicSizes[(ty.shape.take i).countP fun s =>
              decide (s = Hoist.DimSize.dyn)]? = some d ∧
            ubF d = some b ∧ staticShape[i]? = some b ∧
            subviewSizes[i]? = some (Hoist.OFR.val d))) ∧
    (∀ op ∈ f.allOps, op.opid ≠ allocLikeOp.opid →
        ¬(Hoist.isDeallocUser op = true ∧ res ∈ op.data.operandValues) →
        Hoist.Operation.mk op.opid (op.data.substUse res (fresh + 1)) ∈
          (Hoist.processOneAllocLike ubF (f, fresh) allocLikeOp).1.allOps) ∧
    (∀ op ∈ (Hoist.processOneAllocLike ubF (f, fresh) allocLikeOp).1.allOps,
        res ∉ op.data.operandValues) := by
  have hres : Hoist.allocResult allocLikeOp = res := by
    simp [Hoist.allocResult, hdata]
  have horiglt : allocLikeOp.opid < fresh := (hfresh allocLikeOp hmem).1
  have hreslt : res < fresh := by
    have h2 := (hfresh allocLikeOp hmem).2.2
    rw [hdata] at h2
    exact h2 res (by simp [Hoist.OpData.resultValues])
  have hie : dynamicSizes.isEmpty = false := by
    cases dynamicSizes with
    | nil => exact absurd rfl hdynne
    | cons a t => rfl
  have hneq : res ≠ fresh + 1 :=
    ne_of_lt (lt_trans hreslt (Nat.lt_succ_self fresh))
  have hentryNeOrig : ∀ o ∈ (Hoist.insertAtEntryStart f
      ⟨fresh, Hoist.OpData.allocLike kind fresh
        ⟨staticShape.map Hoist.DimSize.static, ty.elementType⟩ []
        alignment⟩).entry.ops, o.opid ≠ allocLikeOp.opid := by
    intro o ho
    rcases List.mem_cons.mp ho with rfl | ho2
    · exact ne_of_gt horiglt
    · exact Hoist.opid_ne_of_mem_entry_of_not_entry f hnodup o ho2
        allocLikeOp hmem hnotentry
  obtain ⟨f2, FR, hstep, hf2entry, hf2mem⟩ :
      ∃ f2 FR, Hoist.processOneAllocLike ubF (f, fresh) allocLikeOp =
        (((Hoist.usersOf f res).filter Hoist.isDeallocUser).foldl
            (fun fn d => Hoist.eraseOpById fn d.opid)
            (Hoist.replaceOpWith f2 allocLikeOp (fresh + 1)), FR) ∧
        f2.entry.ops =
          Hoist.Operation.mk fresh
              (Hoist.OpData.allocLike kind fresh
                ⟨staticShape.map Hoist.DimSize.static, ty.elementType⟩ []
                alignment) ::
            (if kind = Hoist.AllocKind.alloc
              then Hoist.insertBeforeLast f.entry.ops
                (Hoist.Operation.mk (fresh + 2)
                  (Hoist.OpData.deallocOp fresh))
              else f.entry.ops) ∧
        (∀ op, op ∈ f2.allOps ↔
          op = Hoist.Operation.mk fresh
            (Hoist.OpData.allocLike kind fresh
              ⟨staticShape.map Hoist.DimSize.static, ty.elementType⟩ []
              alignment) ∨
          op = Hoist.Operation.mk (fresh + 1)
            (Hoist.OpData.subViewOp (fresh + 1) fresh
              (List.replicate ty.shape.length (Hoist.OFR.attr 0))
              subviewSizes
              (List.replicate ty.shape.length (Hoist.OFR.attr 1))) ∨
          (kind = Hoist.AllocKind.alloc ∧
            op = Hoist.Operation.mk (fresh + 2)
              (Hoist.OpData.deallocOp fresh)) ∨
          op ∈ f.allOps) := by
    by_cases hk : kind = Hoist.AllocKind.alloc
    · subst hk
      refine ⟨Hoist.insertBeforeEntryTerminator
          (Hoist.insertBeforeOp
            (Hoist.insertAtEntryStart f
              ⟨fresh, Hoist.OpData.allocLike Hoist.AllocKind.alloc fresh
                ⟨staticShape.map Hoist.DimSize.static, ty.elementType⟩ []
                alignment⟩)
            allocLikeOp.opid
            ⟨fresh + 1, Hoist.OpData.subViewOp (fresh + 1) fresh
              (List.replicate ty.shape.length (Hoist.OFR.attr 0))
              subviewSizes
              (List.replicate ty.shape.length (Hoist.OFR.attr 1))⟩)
          ⟨fresh + 2, Hoist.OpData.deallocOp fresh⟩, fresh + 3, ?_, ?_, ?_⟩
      · simp [Hoist.processOneAllocLike,
          Hoist.hoistOneStaticallyBoundAllocationOp, hdata,
          Hoist.hoistOneStaticallyBoundAllocation, hres, hie, hcss]
      · have he1 : (Hoist.insertBeforeOp
            (Hoist.insertAtEntryStart f
              ⟨fresh, Hoist.OpData.allocLike Hoist.AllocKind.alloc fresh
                ⟨staticShape.map Hoist.DimSize.static, ty.elementType⟩ []
                alignment⟩)
            allocLikeOp.opid
            ⟨fresh + 1, Hoist.OpData.subViewOp (fresh + 1) fresh
              (List.replicate ty.shape.length (Hoist.OFR.attr 0))
              subviewSizes
              (List.replicate ty.shape.length (Hoist.OFR.attr 1))⟩).entry.ops =
            Hoist.Operation.mk fresh
                (Hoist.OpData.allocLike Hoist.AllocKind.alloc fresh
                  ⟨staticShape.map Hoist.DimSize.static, ty.elementType⟩ []
                  alignment) :: f.entry.ops :=
          Hoist.entry_insertBeforeOp_of_not_mem _ _ _ hentryNeOrig

        show Hoist.insertBeforeLast _ _ = _
        rw [he1, Hoist.insertBeforeLast_cons_of_ne_nil _ _ _ hne]
        simp
      · intro op
        rw [Hoist.mem_allOps_insertBeforeEntryTerminator,
          Hoist.mem_allOps_insertBeforeOp, Hoist.allOps_insertAtEntryStart]
        constructor
        · rintro (rfl | ⟨hsub, _⟩ | hmem2)
          · exact Or.inr (Or.inr (Or.inl ⟨rfl, rfl⟩))
          · exact Or.inr (Or.inl hsub)
          · rcases List.mem_cons.mp hmem2 with rfl | h3
            · exact Or.inl rfl
            · exact Or.inr (Or.inr (Or.inr h3))
        · rintro (rfl | rfl | ⟨_, rfl⟩ | h4)
          · exact Or.inr (Or.inr (List.mem_cons_self _ _))
          · exact Or.inr (Or.inl ⟨rfl, allocLikeOp,
              List.mem_cons_of_mem _ hmem, rfl⟩)
          · exact Or.inl rfl
          · exact Or.inr (Or.inr (List.mem_cons_of_mem _ h4))
    · refine ⟨Hoist.insertBeforeOp
          (Hoist.insertAtEntryStart f
            ⟨fresh, Hoist.OpData.allocLike kind fresh
              ⟨staticShape.map Hoist.DimSize.static, ty.elementType⟩ []
              alignment⟩)
          allocLikeOp.opid
          ⟨fresh + 1, Hoist.OpData.subViewOp (fresh + 1) fresh
            (List.replicate ty.shape.length (Hoist.OFR.attr 0))
            subviewSizes
            (List.replicate ty.shape.length (Hoist.OFR.attr 1))⟩,
          fresh + 2, ?_, ?_, ?_⟩
      · simp [Hoist.processOneAllocLike,
          Hoist.hoistOneStaticallyBoundAllocationOp, hdata,
          Hoist.hoistOneStaticallyBoundAllocation, hres, hie, hcss, hk]
      · rw [Hoist.entry_insertBeforeOp_of_not_mem _ _ _ hentryNeOrig]
        simp [hk, Hoist.insertAtEntryStart]
      · intro op
        rw [Hoist.mem_allOps_insertBeforeOp, Hoist.allOps_insertAtEntryStart]
        constructor
        · rintro (⟨hsub, _⟩ | hmem2)
          · exact Or.inr (Or.inl hsub)
          · rcases List.mem_cons.mp hmem2 with rfl | h3
            · exact Or.inl rfl
            · exact Or.inr (Or.inr (Or.inr h3))
        · rintro (rfl | rfl | ⟨hkk, rfl⟩ | h4)
          · exact Or.inr (List.mem_cons_self _ _)
          · exact Or.inl ⟨rfl, allocLikeOp, List.mem_cons_of_mem _ hmem, rfl⟩
          · exact absurd hkk hk
          · exact Or.inr (List.mem_cons_of_mem _ h4)
  have hEmem : ∀ a ∈ f2.entry.ops,
      a = Hoist.Operation.mk fresh
        (Hoist.OpData.allocLike kind fresh
          ⟨staticShape.map Hoist.DimSize.static, ty.elementType⟩ []
          alignment) ∨
      a = Hoist.Operation.mk (fresh + 2) (Hoist.OpData.deallocOp fresh) ∨
      a ∈ f.entry.ops := by
    rw [hf2entry]
    intro a ha
    rcases List.mem_cons.mp ha with rfl | h2
    · exact Or.inl rfl
    · by_cases hk : kind = Hoist.AllocKind.alloc
      · rw [if_pos hk] at h2
        rcases (Hoist.mem_insertBeforeLast _ _ _).mp h2 with rfl | h3
        · exact Or.inr (Or.inl rfl)
        · exact Or.inr (Or.inr h3)
      · rw [if_neg hk] at h2
        exact Or.inr (Or.inr h2)
  have hgentry : (Hoist.replaceOpWith f2 allocLikeOp (fresh + 1)).entry.ops =
      (f2.entry.ops.map fun o =>
        Hoist.Operation.mk o.opid (o.data.substUse res (fresh + 1))).filter
        fun o => !(o.opid == allocLikeOp.opid) := by
    rw [Hoist.replaceOpWith, hres]
    rfl
  have hmapfix : (f2.entry.ops.map fun o =>
      Hoist.Operation.mk o.opid (o.data.substUse res (fresh + 1))) =
      f2.entry.ops := by
    apply Hoist.map_eq_self_of_forall
    intro a ha
    rcases hEmem a ha with rfl | rfl | h3
    · simp [Hoist.OpData.substUse]
    · simp [Hoist.OpData.substUse,
        Hoist.substVal_of_ne res (fresh + 1) fresh (ne_of_gt hreslt)]
    · rw [Hoist.substUse_eq_self a.data res (fresh + 1) (hentryNoUse a h3)]
  have hfilterfix : (f2.entry.ops.filter
      fun o => !(o.opid == allocLikeOp.opid)) = f2.entry.ops := by
    apply List.filter_eq_self.mpr
    intro o ho
    simp only [Bool.not_eq_true', beq_eq_false_iff_ne, ne_eq]
    rcases hEmem o ho with rfl | rfl | h3
    · exact ne_of_gt horiglt
    · exact ne_of_gt (show allocLikeOp.opid < fresh + 2 by omega)
    · exact Hoist.opid_ne_of_mem_entry_of_not_entry f hnodup o h3
        allocLikeOp hmem hnotentry
  have hdsfacts : ∀ d ∈ (Hoist.usersOf f res).filter Hoist.isDeallocUser,
      d ∈ f.allOps ∧ res ∈ d.data.operandValues := by
    intro d hd
    rcases List.mem_filter.mp hd with ⟨hdu, _⟩
    rcases List.mem_filter.mp hdu with ⟨hdf, hdo⟩
    exact ⟨hdf, by simpa using hdo⟩
  have hfoldentry : (((Hoist.usersOf f res).filter Hoist.isDeallocUser).foldl
      (fun fn d => Hoist.eraseOpById fn d.opid)
      (Hoist.replaceOpWith f2 allocLikeOp (fresh + 1))).entry.ops =
      f2.entry.ops := by
    rw [Hoist.entry_foldErase]
    · rw [hgentry, hmapfix, hfilterfix]
    · intro o ho d hd
      rcases hdsfacts d hd with ⟨hdf, hdo⟩
      have hdlt : d.opid < fresh := (hfresh d hdf).1
      have hdne : d ∉ f.entry.ops := fun hc => hentryNoUse d hc hdo
      rw [hgentry, hmapfix, hfilterfix] at ho
      rcases hEmem o ho with rfl | rfl | h3
      · exact ne_of_gt hdlt
      · exact ne_of_gt (show d.opid < fresh + 2 by omega)
      · exact Hoist.opid_ne_of_mem_entry_of_not_entry f hnodup o h3 d hdf
          hdne
  have hsubnores : res ∉ (Hoist.OpData.subViewOp (fresh + 1) fresh
      (List.replicate ty.shape.length (Hoist.OFR.attr 0)) subviewSizes
      (List.replicate ty.shape.length (Hoist.OFR.attr 1))).operandValues := by
    simp only [Hoist.OpData.operandValues, Hoist.ofrOperands_replicate_attr,
      List.mem_cons, List.mem_append, List.not_mem_nil, or_false, false_or,
      not_or]
    exact ⟨ne_of_lt hreslt, fun hc =>
      hresNotSize (Hoist.computeShapeAndSizes_sizes_sub ubF ty.shape
        dynamicSizes staticShape subviewSizes hcss res hc)⟩
  have hsubing : Hoist.Operation.mk (fresh + 1)
      (Hoist.OpData.subViewOp (fresh + 1) fresh
        (List.replicate ty.shape.length (Hoist.OFR.attr 0)) subviewSizes
        (List.replicate ty.shape.length (Hoist.OFR.attr 1))) ∈
      (Hoist.replaceOpWith f2 allocLikeOp (fresh + 1)).allOps := by
    rw [Hoist.replaceOpWith, hres, Hoist.allOps_eraseOpById,
      Hoist.allOps_substAllUses]
    refine List.mem_filter.mpr ⟨List.mem_map.mpr ⟨_, (hf2mem _).mpr
      (Or.inr (Or.inl rfl)), ?_⟩, ?_⟩
    · rw [Hoist.substUse_eq_self _ _ _ hsubnores]
    · simp only [Bool.not_eq_true', beq_eq_false_iff_ne, ne_eq]
      exact ne_of_gt (lt_trans horiglt (Nat.lt_succ_self fresh))
  obtain ⟨-, -, c4, c5⟩ := Hoist.replace_erase_facts f f2 allocLikeOp res
    (fresh + 1) hnodup hmem hres hneq
    (fun op hop => (hf2mem op).mpr (Or.inr (Or.inr (Or.inr hop)))) _ _ rfl rfl
  rw [hstep]
  refine ⟨?_, ?_, ?_, c4, c5⟩
  · show (((Hoist.usersOf f res).filter Hoist.isDeallocUser).foldl
        (fun fn d => Hoist.eraseOpById fn d.opid)
        (Hoist.replaceOpWith f2 allocLikeOp (fresh + 1))).entry.ops = _
    rw [hfoldentry, hf2entry]
  · show _ ∈ (((Hoist.usersOf f res).filter Hoist.isDeallocUser).foldl
        (fun fn d => Hoist.eraseOpById fn d.opid)
        (Hoist.replaceOpWith f2 allocLikeOp (fresh + 1))).allOps
    refine (Hoist.mem_allOps_foldErase _ _ _).mpr ⟨hsubing, ?_⟩
    intro d hd
    have hdlt : d.opid < fresh := (hfresh d (hdsfacts d hd).1).1
    exact ne_of_gt (show d.opid < fresh + 1 by omega)
  · exact Hoist.computeShapeAndSizes_spec ubF ty.shape dynamicSizes
      staticShape subviewSizes hcss

/-- C3 witness: a concrete static allocation in a nested block with a
store and a matching dealloc; after hoisting, the entry block starts with
the fresh allocation followed by a dealloc right before the terminator. -/
theorem hoistStaticAlloc_staticCase_witness :
    (aStatic.data = Hoist.OpData.allocLike Hoist.AllocKind.alloc 10
        ⟨[Hoist.DimSize.static 4], 0⟩ [] none) ∧
    (fStatic.allOps.map Hoist.Operation.opid).Nodup ∧
    Hoist.FreshFor 20 fStatic ∧
    fStatic.entry.ops ≠ [] ∧
    aStatic ∈ fStatic.allOps ∧
    aStatic ∉ fStatic.entry.ops ∧
    (∀ op ∈ fStatic.entry.ops, 10 ∉ op.data.operandValues) ∧
    ((Hoist.processOneAllocLike ubEight (fStatic, 20) aStatic).1.entry.ops =
        Hoist.Operation.mk 20
            (Hoist.OpData.allocLike Hoist.AllocKind.alloc 20
              ⟨[Hoist.DimSize.static 4], 0⟩ [] none) ::
          (if Hoist.AllocKind.alloc = Hoist.AllocKind.alloc
            then Hoist.insertBeforeLast fStatic.entry.ops
              (Hoist.Operation.mk 21 (Hoist.OpData.deallocOp 20))
            else fStatic.entry.ops)) :=
  ⟨rfl, by decide, by decide, by decide, by decide, by decide, by decide,
    (hoistStaticAlloc_staticCase ubEight fStatic 20 aStatic
      Hoist.AllocKind.alloc 10 ⟨[Hoist.DimSize.static 4], 0⟩ none rfl
      (by decide) (by decide) (by decide) (by decide) (by decide)
      (by decide)).1⟩

/-- C4 witness: a concrete 2 × dynamic allocation whose dynamic size
operand is bounded by 8; after hoisting, the entry block starts with a
2 × 8 allocation and the subview op is present in the rewritten
function. -/
theorem hoistStaticAlloc_dynCase_witness :
    (aDyn.data = Hoist.OpData.allocLike Hoist.AllocKind.alloc 10
        ⟨[Hoist.DimSize.static 2, Hoist.DimSize.dyn], 0⟩ [6] none) ∧
    ([6] : List Nat) ≠ [] ∧
    Hoist.computeShapeAndSizes ubEight
        [Hoist.DimSize.static 2, Hoist.DimSize.dyn] [6] =
      some ([2, 8], [Hoist.OFR.attr 2, Hoist.OFR.val 6]) ∧
    (fDyn.allOps.map Hoist.Operation.opid).Nodup ∧
    Hoist.FreshFor 20 fDyn ∧
    fDyn.entry.ops ≠ [] ∧
    aDyn ∈ fDyn.allOps ∧
    aDyn ∉ fDyn.entry.ops ∧
    (∀ op ∈ fDyn.entry.ops, 10 ∉ op.data.operandValues) ∧
    (10 : Nat) ∉ ([6] : List Nat) ∧
    ((Hoist.processOneAllocLike ubEight (fDyn, 20) aDyn).1.entry.ops =
        Hoist.Operation.mk 20
            (Hoist.OpData.allocLike Hoist.AllocKind.alloc 20
              ⟨[2, 8].map Hoist.DimSize.static, 0⟩ [] none) ::
          (if Hoist.AllocKind.alloc = Hoist.AllocKind.alloc
            then Hoist.insertBeforeLast fDyn.entry.ops
              (Hoist.Operation.mk 22 (Hoist.OpData.deallocOp 20))
            else fDyn.entry.ops)) ∧
    (Hoist.Operation.mk 21
        (Hoist.OpData.subViewOp 21 20
          (List.replicate
            ([Hoist.DimSize.static 2, Hoist.DimSize.dyn] : List Hoist.DimSize).length
            (Hoist.OFR.attr 0))
          [Hoist.OFR.attr 2, Hoist.OFR.val 6]
          (List.replicate
            ([Hoist.DimSize.static 2, Hoist.DimSize.dyn] : List Hoist.DimSize).length
            (Hoist.OFR.attr 1))) ∈
      (Hoist.processOneAllocLike ubEight (fDyn, 20) aDyn).1.allOps) :=
  ⟨rfl, by decide, by decide, by decide, by decide, by decide, by decide,
    by decide, by decide, by decide,
    (hoistStaticAlloc_dynCase ubEight fDyn 20 aDyn Hoist.AllocKind.alloc 10
      ⟨[Hoist.DimSize.static 2, Hoist.DimSize.dyn], 0⟩ [6] none [2, 8]
      [Hoist.OFR.attr 2, Hoist.OFR.val 6] rfl (by decide) (by decide)
      (by decide) (by decide) (by decide) (by decide) (by decide)
      (by decide) (by decide)).1,
    (hoistStaticAlloc_dynCase ubEight fDyn 20 aDyn Hoist.AllocKind.alloc 10
      ⟨[Hoist.DimSize.static 2, Hoist.DimSize.dyn], 0⟩ [6] none [2, 8]
      [Hoist.OFR.attr 2, Hoist.OFR.val 6] rfl (by decide) (by decide)
      (by decide) (by decide) (by decide) (by decide) (by decide)
      (by decide) (by decide)).2.1⟩

/-- C5: a dynamically sized allocation with a dynamic dimension whose
runtime size has no derivable constant upper bound is skipped with no
rewrite of any kind — the per-candidate hoist body returns the function
and the fresh counter unchanged — while the function-level
HoistStaticAllocOp still reports success on every input function. -/
theorem hoistStaticAlloc_unboundedSkip
    (ubF : Nat → Option Nat) (f : Hoist.FuncOp) (fresh : Nat)
    (allocLikeOp : Hoist.Operation) (kind : Hoist.AllocKind) (res : Nat)
    (ty : Hoist.MemRefType) (dynamicSizes : List Nat)
    (alignment : Option Nat) (i d : Nat)
    (hdata : allocLikeOp.data =
      Hoist.OpData.allocLike kind res ty dynamicSizes alignment)
    (hdim : ty.shape[i]? = some Hoist.DimSize.dyn)
    (hd : dynamicSizes[(ty.shape.take i).countP fun s =>
        decide (s = Hoist.DimSize.dyn)]? = some d)
    (hub : ubF d = none) :
    Hoist.processOneAllocLike ubF (f, fresh) allocLikeOp = (f, fresh) ∧
    ∀ g fr, (Hoist.hoistStaticAllocApplyToOne ubF g fr).1 = Diag.success := by
  have hnone := Hoist.computeShapeAndSizes_unbounded_none ubF ty.shape
    dynamicSizes i d hdim hd hub
  have hie : dynamicSizes.isEmpty = false := by
    cases dynamicSizes with
    | nil => simp at hd
    | cons a t => rfl
  constructor
  · simp [Hoist.processOneAllocLike,
      Hoist.hoistOneStaticallyBoundAllocationOp, hdata,
      Hoist.hoistOneStaticallyBoundAllocation, hie, hnone]
  · intro g fr
    rfl

/-- C5 witness: with a host analysis that never derives a bound, the
dynamically sized allocation of fDyn is left untouched and the
function-level op succeeds. -/
theorem hoistStaticAlloc_unboundedSkip_witness :
    (aDyn.data = Hoist.OpData.allocLike Hoist.AllocKind.alloc 10
        ⟨[Hoist.DimSize.static 2, Hoist.DimSize.dyn], 0⟩ [6] none) ∧
    (([Hoist.DimSize.static 2, Hoist.DimSize.dyn] :
        List Hoist.DimSize)[1]? = some Hoist.DimSize.dyn) ∧
    (([6] : List Nat)[(([Hoist.DimSize.static 2, Hoist.DimSize.dyn] :
        List Hoist.DimSize).take 1).countP fun s =>
          decide (s = Hoist.DimSize.dyn)]? = some 6) ∧
    ubNone 6 = none ∧
    (Hoist.processOneAllocLike ubNone (fDyn, 20) aDyn = (fDyn, 20) ∧
      ∀ g fr, (Hoist.hoistStaticAllocApplyToOne ubNone g fr).1 =
        Diag.success) :=
  ⟨rfl, by decide, by decide, rfl,
    hoistStaticAlloc_unboundedSkip ubNone fDyn 20 aDyn
      Hoist.AllocKind.alloc 10
      ⟨[Hoist.DimSize.static 2, Hoist.DimSize.dyn], 0⟩ [6] none 1 6 rfl
      (by decide) (by decide) rfl⟩

/-- C10: with an empty share_operands attribute, ShareForallOperandsOp
fills a local vector with all output indices but its loop iterates over
the original empty attribute, so no extract_slice source is promoted: the
target is returned unchanged and the op reports success. -/
theorem shareForallOperands_emptyAttr_noop (forallOp : Share.ForallOp) :
    Share.shareForallApplyToOne [] forallOp = (Diag.success, forallOp) := rfl

end Loopy
